import Mathlib

/-!
Verification of the blue-noise generator (Fast Poisson Disk Sampling) library.

The development shallowly embeds `src/lib.rs` over an arbitrary linear ordered
field `α` with a floor function. The source works on `f64`; the embedding uses
exact arithmetic (instantiated at `ℚ` for concrete evaluation and at `ℝ` where
`sin`/`cos` matter). Panics of the source (failed `assert!`, out-of-range
indexing, `unwrap` on `Err`, `gen_range` on an empty range) are modelled as
`Option.none` / dedicated `panicked` constructors.

The source computes `cell_size = min_distance / (D as f64).sqrt()`, which is
irrational for most `D`; the embedding takes `cell_size` as an explicit
parameter and theorems constrain it by `(D : α) * cell_size ^ 2 = min_distance ^ 2`
(exactly the defining equation of `min_distance / sqrt D`), or by the weaker
`≤` where that suffices.

The thread-local random number generator of the source is modelled by an
explicit tape (`rng_initial`, `rng_radius`, `rng_angles` and the counter
`rng_ctr`), and `f64::sin` / `f64::cos` by explicit function fields
`sinf` / `cosf`; theorems add the constraints that the real draws satisfy
(range bounds, `sin² + cos² = 1`) as hypotheses.
-/

set_option linter.unusedVariables false
set_option linter.unusedSectionVars false

namespace BlueNoise

variable {α : Type} [LinearOrderedField α] [FloorRing α]

/-- Background grid structure, mirroring `struct BackgroundGrid` of the source:
a flat cell array `data` (0 = empty cell, otherwise a 1-based sample id), the
domain extents `dimensions`, the squared minimum distance, the cell size, the
per-axis cell counts and the mixed-radix stride table. -/
structure BackgroundGrid (α : Type) where
  data : List ℕ
  dimensions : List α
  min_dst_sqr : α
  cell_size : α
  cell_count : List ℕ
  cell_multiplicators : List ℕ
  deriving DecidableEq

/-- The stride-table fold of `BackgroundGrid::new`: starting from accumulator
`accu = 1`, push the accumulator and multiply it by the axis cell count. -/
def multsAux (accu : ℕ) : List ℕ → List ℕ
  | [] => []
  | c :: cs => accu :: multsAux (accu * c) cs

/-- Embedding of `BackgroundGrid::new`. The source `assert!(min_distance > 0.0)`
panic is modelled by returning `none`. `(x / cell_size).ceil() as usize` is
`⌈x / cell_size⌉.toNat` (Rust's float-to-usize cast saturates at 0 from below,
as does `Int.toNat`). -/
def BackgroundGrid.new (dimensions : List α) (min_distance : α) (cell_size : α) :
    Option (BackgroundGrid α) :=
  if 0 < min_distance then
    let cell_count : List ℕ := dimensions.map (fun x => (⌈x / cell_size⌉).toNat)
    let data_size := cell_count.prod
    some { data := List.replicate data_size 0
           dimensions := dimensions
           min_dst_sqr := min_distance * min_distance
           cell_size := cell_size
           cell_count := cell_count
           cell_multiplicators := multsAux 1 cell_count }
  else none

/-- Embedding of `BackgroundGrid::dst_sqr`: squared Euclidean distance as a
fold over the zip of the two coordinate lists (Rust's `zip` truncates to the
shorter list, as does `List.zip`). -/
def dst_sqr (x y : List α) : α :=
  (x.zip y).foldl (fun accu p => accu + (p.1 - p.2) * (p.1 - p.2)) 0

/-- Embedding of `BackgroundGrid::calc_idx`: flatten a multi-dimensional cell
index via the stride table. The source starts the fold from `cell_id[0]`,
which panics on an empty cell index; callers of this definition guard that
case (see `BackgroundGrid.insert`), so `headD 0` agrees with the source on
every reachable call. -/
def BackgroundGrid.calc_idx (g : BackgroundGrid α) (cell_id : List ℕ) : ℕ :=
  ((g.cell_multiplicators.zip cell_id).drop 1).foldl
    (fun accu p => accu + p.1 * p.2) (cell_id.headD 0)

/-- The neighborhood half-width computed by `BackgroundGrid::insert`:
`(self.min_dst_sqr / self.cell_size).ceil() as usize`. Note the source divides
the squared minimum distance by the cell size. -/
def BackgroundGrid.cell_offs (g : BackgroundGrid α) : ℕ :=
  (⌈g.min_dst_sqr / g.cell_size⌉).toNat

/-- The owning cell computed by `BackgroundGrid::insert`:
`(*x / self.cell_size) as usize` per axis, that is `⌊x / cell_size⌋.toNat`
(the float-to-usize cast truncates toward zero and saturates at 0, which for
every sign of the operand agrees with `Int.toNat ∘ Int.floor`). -/
def BackgroundGrid.cellOf (g : BackgroundGrid α) (sample_position : List α) :
    List ℕ :=
  sample_position.map (fun x => (⌊x / g.cell_size⌋).toNat)

/-- The lower corner of the scan window of `BackgroundGrid::insert`:
`x.saturating_sub(cell_offs)` per axis, which is truncated `ℕ` subtraction. -/
def BackgroundGrid.minCell (g : BackgroundGrid α) (cell_id : List ℕ) : List ℕ :=
  cell_id.map (fun x => x - g.cell_offs)

/-- The upper corner of the scan window of `BackgroundGrid::insert`:
`min(x + cell_offs, size_x - 1)` per axis. -/
def BackgroundGrid.maxCell (g : BackgroundGrid α) (cell_id : List ℕ) : List ℕ :=
  (cell_id.zip g.cell_count).map (fun p => min (p.1 + g.cell_offs) (p.2 - 1))

/-- Fuel passed to the embedded scan loop: the exact number of cells of the
scan window (proved sufficient below, so the fuel never runs out on the calls
the source makes). -/
def scanFuel (min_cell max_cell : List ℕ) : ℕ :=
  ((min_cell.zip max_cell).map (fun p => p.2 + 1 - p.1)).prod

/-- One step of the mixed-radix odometer of `BackgroundGrid::insert`: scan the
axes from axis 0; an axis at its maximum is reset to its minimum and the carry
moves on, otherwise the axis is incremented and the scan stops. -/
def odoNext : List ℕ → List ℕ → List ℕ → List ℕ
  | _, _, [] => []
  | mn :: mns, mx :: mxs, i :: rest =>
    if i = mx then mn :: odoNext mns mxs rest else (i + 1) :: rest
  | _, _, i :: rest => i :: rest

/-- The conflict test of one iteration of the scan loop of
`BackgroundGrid::insert`: the scanned cell is non-empty and the stored sample
it points to is closer than the minimum distance. `other_id - 1` of the
source is the predecessor `m` of the matched `Nat.succ m`. -/
def BackgroundGrid.conflictAt (g : BackgroundGrid α) (samples : List (List α))
    (sample_position : List α) (indices : List ℕ) : Bool :=
  match g.data.getD (g.calc_idx indices) 0 with
  | 0 => false
  | Nat.succ m =>
    decide (dst_sqr sample_position (samples.getD m []) < g.min_dst_sqr)

/-- The cell-scanning loop of `BackgroundGrid::insert`. Returns `true` when a
distance violation is found. The loop of the source terminates because the
odometer strictly increases the mixed-radix rank of `indices` within the
scanned box; the embedding makes this a structural recursion on a fuel
argument, and `BackgroundGrid.insert` passes the exact size of the box, which
is proved sufficient below, so the embedding and the source agree on every
call the source makes. -/
def BackgroundGrid.scanLoop (g : BackgroundGrid α) (samples : List (List α))
    (sample_position : List α) (min_cell max_cell : List ℕ) :
    List ℕ → ℕ → Bool
  | _, 0 => false
  | indices, fuel + 1 =>
    if g.conflictAt samples sample_position indices then true
    else if indices = max_cell then false
    else g.scanLoop samples sample_position min_cell max_cell
      (odoNext min_cell max_cell indices) fuel

/-- Result of `BackgroundGrid::insert`, `Result<usize, ()>` in the source. The
source returns the unit error at two distinct sites; the embedding tags the
site (`errOob` for the domain check, `errDist` for a distance violation). -/
inductive InsertRes where
  | ok (id : ℕ)
  | errOob
  | errDist
  deriving DecidableEq

/-- Embedding of `BackgroundGrid::insert`. Returns the result together with
the updated grid and sample store (the source mutates them in place); `none`
models the panic of `cell_id[0]` on an empty cell index. `(*x / cell_size) as
usize` is `⌊x / cell_size⌋.toNat`. `data[idx]` is modelled by `getD`; on every
call with an in-domain candidate and a well-formed grid the index is in range
(proved below), so this agrees with the panicking Rust indexing. -/
def BackgroundGrid.insert (g : BackgroundGrid α) (sample_position : List α)
    (samples : List (List α)) :
    Option (InsertRes × BackgroundGrid α × List (List α)) :=
  if (sample_position.zip g.dimensions).any
      (fun p => decide (p.1 < 0) || decide (p.2 ≤ p.1)) then
    some (InsertRes.errOob, g, samples)
  else
    if g.cellOf sample_position = [] then none
    else
      if g.scanLoop samples sample_position
          (g.minCell (g.cellOf sample_position))
          (g.maxCell (g.cellOf sample_position))
          (g.minCell (g.cellOf sample_position))
          (scanFuel (g.minCell (g.cellOf sample_position))
            (g.maxCell (g.cellOf sample_position))) then
        some (InsertRes.errDist, g, samples)
      else
        some (InsertRes.ok (samples.length + 1),
          { g with data := g.data.set (g.calc_idx (g.cellOf sample_position))
                     (samples.length + 1) },
          samples ++ [sample_position])

/-- Embedding of `polar_to_cartesian`, parametric in the sine and cosine
functions (the source uses `f64::sin` / `f64::cos`). -/
def polar_to_cartesian (sinf cosf : α → α) (radius : α) (angles : List α) :
    List α :=
  let sines : List α := angles.map sinf
  (List.range (angles.length + 1)).map (fun i =>
    ((sines.take i).foldl (· * ·) radius) *
      (match angles[i]? with
       | some ang => cosf ang
       | none => 1))

/-- Sum of squared coordinates, used to state the norm identity of
`polar_to_cartesian`. -/
def sumSq (xs : List α) : α :=
  xs.foldl (fun accu x => accu + x * x) 0

/-- Embedding of `struct BlueNoiseIterator`, extended with the model of the
thread-local RNG (a tape of draws plus a counter) and of `f64::sin`/`f64::cos`.
The tape functions and `sinf`/`cosf` never change during iteration; only
`rng_ctr` advances, once per spawn attempt. -/
structure BlueNoiseIterator (α : Type) where
  dimensions : List α
  min_distance : α
  k_abort : ℕ
  samples : List (List α)
  bggrid : BackgroundGrid α
  active : List ℕ
  active_idx : ℕ
  next_active : List ℕ
  rng_initial : List α
  rng_radius : ℕ → α
  rng_angles : ℕ → List α
  rng_ctr : ℕ
  sinf : α → α
  cosf : α → α

/-- Embedding of `BlueNoiseIterator::new` (and hence of the construction part
of `blue_noise` / `blue_noise_iter`): build the grid, start with empty sample
store and active lists. `none` models the construction-time panic of
`BackgroundGrid::new`. -/
def BlueNoiseIterator.new (dimensions : List α) (min_distance cell_size : α)
    (k_abort : ℕ) (rng_initial : List α) (rng_radius : ℕ → α)
    (rng_angles : ℕ → List α) (sinf cosf : α → α) :
    Option (BlueNoiseIterator α) :=
  (BackgroundGrid.new dimensions min_distance cell_size).map (fun g =>
    { dimensions := dimensions
      min_distance := min_distance
      k_abort := k_abort
      samples := []
      bggrid := g
      active := []
      active_idx := 0
      next_active := []
      rng_initial := rng_initial
      rng_radius := rng_radius
      rng_angles := rng_angles
      rng_ctr := 0
      sinf := sinf
      cosf := cosf })

/-- Result of one pull on the iterator: a produced sample together with the
new state, end of the sequence (`None` of the source), or a panic. -/
inductive Step (α : Type) where
  | emit (p : List α) (s : BlueNoiseIterator α)
  | ended (s : BlueNoiseIterator α)
  | panicked

/-- Result of the bounded retry loop (`for _ in 0..self.k_abort`) inside
`BlueNoiseIterator::next`. -/
inductive AttemptRes (α : Type) where
  | accepted (p : List α) (s : BlueNoiseIterator α)
  | exhausted (s : BlueNoiseIterator α)
  | panicked

/-- The retry loop of `BlueNoiseIterator::next`: up to `k` times, draw a
radius and `D − 1` angles from the tape, build the candidate
`current.position + offset` and try to insert it. On success the parent id
and the new id are pushed onto `next_active`, the cursor advances and the new
sample is returned; on rejection the next attempt runs. -/
def BlueNoiseIterator.attempts (s : BlueNoiseIterator α) (current_id : ℕ)
    (current_samp : List α) : ℕ → AttemptRes α
  | 0 => AttemptRes.exhausted s
  | k + 1 =>
    match s.bggrid.insert
        (((polar_to_cartesian s.sinf s.cosf (s.rng_radius s.rng_ctr)
            (s.rng_angles s.rng_ctr)).zip current_samp).map
          (fun p => p.2 + p.1))
        s.samples with
    | none => AttemptRes.panicked
    | some (InsertRes.ok new_samp_id, g2, samples2) =>
      AttemptRes.accepted (samples2.getD (new_samp_id - 1) [])
        { s with bggrid := g2
                 samples := samples2
                 next_active := s.next_active ++ [current_id, new_samp_id]
                 active_idx := s.active_idx + 1
                 rng_ctr := s.rng_ctr + 1 }
    | some (_, g2, samples2) =>
      BlueNoiseIterator.attempts
        { s with bggrid := g2, samples := samples2, rng_ctr := s.rng_ctr + 1 }
        current_id current_samp k

/-- The retry loop can only change the grid, the sample store and the RNG
counter; the work-queue fields are untouched on the exhausted path. Needed for
the termination of `BlueNoiseIterator.next`. -/
theorem attempts_exhausted_fields (c : ℕ) (cur : List α) (k : ℕ)
    (t t2 : BlueNoiseIterator α)
    (h : BlueNoiseIterator.attempts t c cur k = AttemptRes.exhausted t2) :
    t2.active = t.active ∧ t2.active_idx = t.active_idx ∧
      t2.next_active = t.next_active := by
  induction k generalizing t with
  | zero => cases h; exact ⟨rfl, rfl, rfl⟩
  | succ k ih =>
    unfold BlueNoiseIterator.attempts at h
    split at h
    · cases h
    · cases h
    · obtain ⟨h1, h2, h3⟩ := ih _ h
      exact ⟨h1, h2, h3⟩

/-- The double-buffer swap at the top of `BlueNoiseIterator::next`: when the
cursor has run past the end of `active`, replace `active` by `next_active`,
clear `next_active` and reset the cursor. -/
def BlueNoiseIterator.swapIfDone (s : BlueNoiseIterator α) : BlueNoiseIterator α :=
  if s.active.length ≤ s.active_idx then
    { s with active_idx := 0, active := s.next_active, next_active := [] }
  else s

/-- The termination measure of the recursion in `BlueNoiseIterator::next`
drops across a swap followed by a cursor advance, as long as the swapped-in
active list is nonempty. -/
theorem swap_measure (s : BlueNoiseIterator α)
    (h : (BlueNoiseIterator.swapIfDone s).active ≠ []) :
    2 * (BlueNoiseIterator.swapIfDone s).next_active.length +
        ((BlueNoiseIterator.swapIfDone s).active.length -
          ((BlueNoiseIterator.swapIfDone s).active_idx + 1)) <
      2 * s.next_active.length + (s.active.length - s.active_idx) := by
  unfold BlueNoiseIterator.swapIfDone at h ⊢
  by_cases hc : s.active.length ≤ s.active_idx
  · simp only [if_pos hc, List.length_nil] at h ⊢
    have h0 : s.next_active.length ≠ 0 := by
      intro h0
      exact h (List.length_eq_zero.mp h0)
    omega
  · simp only [if_neg hc] at h ⊢
    omega

/-- Embedding of `BlueNoiseIterator::next`. The seed branch draws the initial
sample from the tape (`gen_range(0..x)` panics when `x ≤ 0`, hence the
`panicked` result for a degenerate extent; the `unwrap` of the seed insert
likewise maps failure to `panicked`). Afterwards: swap the double buffer if
the cursor is exhausted, end the sequence if `active` is empty, otherwise run
the retry loop for the current active sample and on exhaustion drop it,
advance the cursor and recurse, exactly as `self.next()` does in the source. -/
def BlueNoiseIterator.next (s : BlueNoiseIterator α) : Step α :=
  if s.samples.isEmpty then
    if s.dimensions.any (fun d => decide (d ≤ 0)) then Step.panicked
    else
      match s.bggrid.insert s.rng_initial s.samples with
      | some (InsertRes.ok id, g1, samples1) =>
        Step.emit s.rng_initial
          { s with bggrid := g1, samples := samples1, active := s.active ++ [id] }
      | _ => Step.panicked
  else
    if (BlueNoiseIterator.swapIfDone s).active.isEmpty then
      Step.ended (BlueNoiseIterator.swapIfDone s)
    else
      match hatt : (BlueNoiseIterator.swapIfDone s).attempts
          ((BlueNoiseIterator.swapIfDone s).active.getD
            (BlueNoiseIterator.swapIfDone s).active_idx 0)
          ((BlueNoiseIterator.swapIfDone s).samples.getD
            ((BlueNoiseIterator.swapIfDone s).active.getD
              (BlueNoiseIterator.swapIfDone s).active_idx 0 - 1) [])
          (BlueNoiseIterator.swapIfDone s).k_abort with
      | AttemptRes.accepted p s2 => Step.emit p s2
      | AttemptRes.panicked => Step.panicked
      | AttemptRes.exhausted s2 =>
        BlueNoiseIterator.next { s2 with active_idx := s2.active_idx + 1 }
  termination_by 2 * s.next_active.length + (s.active.length - s.active_idx)
  decreasing_by
    rename_i hsamp hne
    obtain ⟨ha, hi, hn⟩ := attempts_exhausted_fields _ _ _ _ _ hatt
    rw [ha, hi, hn]
    exact swap_measure s (by
      intro hcon
      exact hne (by rw [hcon]; rfl))

/-- The iterator state after a pull; a panic leaves the state as it was. -/
def stepState (r : Step α) (s : BlueNoiseIterator α) : BlueNoiseIterator α :=
  match r with
  | Step.emit _ s2 => s2
  | Step.ended s2 => s2
  | Step.panicked => s

/-- The iterator state after `n` pulls (`n` calls of `Iterator::next`). -/
def iterN (s : BlueNoiseIterator α) : ℕ → BlueNoiseIterator α
  | 0 => s
  | n + 1 => stepState (BlueNoiseIterator.next (iterN s n)) (iterN s n)

/-- The observable kind of a pull result: a produced sample (`Some(point)` in
the source), the end of the sequence (`None`), or a panic. -/
inductive PullKind where
  | sample
  | ended
  | panicked
  deriving DecidableEq

/-- Forgets the payload of a pull result. -/
def Step.kind : Step α → PullKind
  | Step.emit _ _ => PullKind.sample
  | Step.ended _ => PullKind.ended
  | Step.panicked => PullKind.panicked

/-- Kind of the `(n+1)`-st pull on the iterator started in state `s`. -/
def pullKindN (s : BlueNoiseIterator α) (n : ℕ) : PullKind :=
  (BlueNoiseIterator.next (iterN s n)).kind

/-- Embedding of the result of `blue_noise` with an explicit number of pulls:
the source drains its iterator completely (`for _ in it.by_ref() {}`) and
returns `it.samples`; the termination theorem below (claim C6) bounds the
number of pulls needed to reach the end of the sequence, after which the state
is unchanged, so every sufficiently large `fuel` yields the source's result. -/
def blue_noiseN (s : BlueNoiseIterator α) (fuel : ℕ) : List (List α) :=
  (iterN s fuel).samples

/-- Number of empty cells of the grid. -/
def BackgroundGrid.emptyCells (g : BackgroundGrid α) : ℕ :=
  g.data.count 0

/-- Pointwise membership of a multi-index in the box `[mn, mx]`, with matching
lengths. -/
def InBox : List ℕ → List ℕ → List ℕ → Prop
  | [], [], [] => True
  | mn :: mns, mx :: mxs, c :: cs => mn ≤ c ∧ c ≤ mx ∧ InBox mns mxs cs
  | _, _, _ => False

/-- Mixed-radix rank of a multi-index in the box `[mn, mx]`, axis 0 least
significant: the number of odometer steps from `mn`. -/
def odoVal : List ℕ → List ℕ → List ℕ → ℕ
  | _, _, [] => 0
  | [], _, _ :: _ => 0
  | _ :: _, [], _ :: _ => 0
  | mn :: mns, mx :: mxs, c :: cs =>
    (c - mn) + (mx + 1 - mn) * odoVal mns mxs cs

theorem inBox_left {mn mx c : List ℕ} (h : InBox mn mx c) : InBox mn mx mn := by
  induction mn generalizing mx c with
  | nil => cases mx <;> cases c <;> simp_all [InBox]
  | cons m mns ih =>
    cases mx with
    | nil => cases c <;> simp_all [InBox]
    | cons x mxs =>
      cases c with
      | nil => simp_all [InBox]
      | cons y cs =>
        obtain ⟨h1, h2, h3⟩ := h
        exact ⟨le_refl m, le_trans h1 h2, ih h3⟩

theorem inBox_right {mn mx c : List ℕ} (h : InBox mn mx c) : InBox mn mx mx := by
  induction mn generalizing mx c with
  | nil => cases mx <;> cases c <;> simp_all [InBox]
  | cons m mns ih =>
    cases mx with
    | nil => cases c <;> simp_all [InBox]
    | cons x mxs =>
      cases c with
      | nil => simp_all [InBox]
      | cons y cs =>
        obtain ⟨h1, h2, h3⟩ := h
        exact ⟨le_trans h1 h2, le_refl x, ih h3⟩

theorem odoVal_le {mn mx c : List ℕ} (h : InBox mn mx c) :
    odoVal mn mx c ≤ odoVal mn mx mx := by
  induction mn generalizing mx c with
  | nil => cases mx <;> cases c <;> simp_all [InBox, odoVal]
  | cons m mns ih =>
    cases mx with
    | nil => cases c <;> simp_all [InBox]
    | cons x mxs =>
      cases c with
      | nil => simp_all [InBox]
      | cons y cs =>
        obtain ⟨h1, h2, h3⟩ := h
        have hrec := ih h3
        simp only [odoVal]
        have hmul : (x + 1 - m) * odoVal mns mxs cs ≤
            (x + 1 - m) * odoVal mns mxs mxs := Nat.mul_le_mul_left _ hrec
        omega

theorem odoVal_inj {mn mx c d : List ℕ} (hc : InBox mn mx c)
    (hd : InBox mn mx d) (h : odoVal mn mx c = odoVal mn mx d) : c = d := by
  induction mn generalizing mx c d with
  | nil => cases mx <;> cases c <;> cases d <;> simp_all [InBox]
  | cons m mns ih =>
    cases mx with
    | nil => cases c <;> simp_all [InBox]
    | cons x mxs =>
      cases c with
      | nil => simp_all [InBox]
      | cons y cs =>
        cases d with
        | nil => simp_all [InBox]
        | cons z ds =>
          obtain ⟨h1, h2, h3⟩ := hc
          obtain ⟨h4, h5, h6⟩ := hd
          simp only [odoVal] at h
          have hw : 0 < x + 1 - m := by omega
          have hy : y - m < x + 1 - m := by omega
          have hz : z - m < x + 1 - m := by omega
          have hmod := congrArg (· % (x + 1 - m)) h
          simp only [Nat.add_mul_mod_self_left, Nat.mod_eq_of_lt hy,
            Nat.mod_eq_of_lt hz] at hmod
          have hdiv := congrArg (· / (x + 1 - m)) h
          simp only [Nat.add_mul_div_left _ _ hw, Nat.div_eq_of_lt hy,
            Nat.div_eq_of_lt hz, Nat.zero_add] at hdiv
          have hyz : y = z := by omega
          rw [hyz, ih h3 h6 hdiv]

theorem odoNext_spec {mn mx c : List ℕ} (h : InBox mn mx c) (hne : c ≠ mx) :
    InBox mn mx (odoNext mn mx c) ∧
      odoVal mn mx (odoNext mn mx c) = odoVal mn mx c + 1 := by
  induction mn generalizing mx c with
  | nil => cases mx <;> cases c <;> simp_all [InBox]
  | cons m mns ih =>
    cases mx with
    | nil => cases c <;> simp_all [InBox]
    | cons x mxs =>
      cases c with
      | nil => simp_all [InBox]
      | cons y cs =>
        obtain ⟨h1, h2, h3⟩ := h
        by_cases hy : y = x
        · subst hy
          have hcs : cs ≠ mxs := by
            intro hcon
            exact hne (by rw [hcon])
          obtain ⟨ihb, ihv⟩ := ih h3 hcs
          simp only [odoNext, if_pos rfl, odoVal, InBox]
          refine ⟨⟨le_refl m, h1, ihb⟩, ?_⟩
          rw [ihv, Nat.mul_succ]
          omega
        · have hyx : y < x := lt_of_le_of_ne h2 hy
          simp only [odoNext, if_neg hy, odoVal, InBox]
          refine ⟨⟨by omega, by omega, h3⟩, ?_⟩
          omega

theorem odoVal_max_succ {mn mx : List ℕ} (h : InBox mn mx mx) :
    odoVal mn mx mx + 1 = scanFuel mn mx := by
  induction mn generalizing mx with
  | nil => cases mx <;> simp_all [InBox, odoVal, scanFuel]
  | cons m mns ih =>
    cases mx with
    | nil => simp_all [InBox]
    | cons x mxs =>
      obtain ⟨h1, _, h3⟩ := h
      simp only [odoVal, scanFuel, List.zip_cons_cons, List.map_cons,
        List.prod_cons]
      rw [show ((mns.zip mxs).map (fun p => p.2 + 1 - p.1)).prod =
        scanFuel mns mxs from rfl, ← ih h3]
      have hxm : x + 1 - m = (x - m) + 1 := by omega
      rw [hxm]
      ring

theorem odoVal_min_zero (mn mx : List ℕ) : odoVal mn mx mn = 0 := by
  induction mn generalizing mx with
  | nil => cases mx <;> simp [odoVal]
  | cons m mns ih =>
    cases mx with
    | nil => simp [odoVal]
    | cons x mxs => simp [odoVal, ih]

/-- If the scan loop completes without finding a conflict, then the conflict
test passes at every multi-index of the box whose rank is at least the rank of
the starting index. -/
theorem scanLoop_false_conflictAt {g : BackgroundGrid α}
    {samples : List (List α)} {pos : List α} {mn mx : List ℕ} :
    ∀ (fuel : ℕ) (c d : List ℕ), InBox mn mx c → InBox mn mx d →
      odoVal mn mx c ≤ odoVal mn mx d →
      odoVal mn mx mx < odoVal mn mx c + fuel →
      g.scanLoop samples pos mn mx c fuel = false →
      g.conflictAt samples pos d = false := by
  intro fuel
  induction fuel with
  | zero =>
    intro c d hc hd hle hfuel hscan
    have h1 := odoVal_le hc
    omega
  | succ fuel ih =>
    intro c d hc hd hle hfuel hscan
    simp only [BackgroundGrid.scanLoop] at hscan
    by_cases hconf : g.conflictAt samples pos c = true
    · rw [if_pos hconf] at hscan
      cases hscan
    · have hconf' : g.conflictAt samples pos c = false :=
        Bool.eq_false_iff.mpr hconf
      rw [if_neg hconf] at hscan
      by_cases hcd : c = d
      · rw [← hcd]
        exact hconf'
      · have hlt : odoVal mn mx c < odoVal mn mx d :=
          lt_of_le_of_ne hle (fun he => hcd (odoVal_inj hc hd he))
        have hcmx : c ≠ mx := by
          intro hcon
          subst hcon
          have := odoVal_le hd
          omega
        rw [if_neg hcmx] at hscan
        obtain ⟨hb, hv⟩ := odoNext_spec hc hcmx
        exact ih (odoNext mn mx c) d hb hd (by omega) (by omega) hscan

/-- Specialization to the call `BackgroundGrid::insert` makes: starting at the
lower corner with the box-size fuel, a conflict-free scan certifies every cell
of the box. -/
theorem insert_scan_conflictAt {g : BackgroundGrid α}
    {samples : List (List α)} {pos : List α} {mn mx d : List ℕ}
    (hd : InBox mn mx d)
    (hscan : g.scanLoop samples pos mn mx mn (scanFuel mn mx) = false) :
    g.conflictAt samples pos d = false := by
  have hmn : InBox mn mx mn := inBox_left hd
  have hmx : InBox mn mx mx := inBox_right hd
  refine scanLoop_false_conflictAt (scanFuel mn mx) mn d hmn hd ?_ ?_ hscan
  · rw [odoVal_min_zero]
    exact Nat.zero_le _
  · rw [odoVal_min_zero, ← odoVal_max_succ hmx]
    omega

/-- On a grid whose cells are all empty the scan never finds a conflict. -/
theorem scanLoop_all_zero {g : BackgroundGrid α} {samples : List (List α)}
    {pos : List α} {mn mx : List ℕ} (hz : ∀ i, g.data.getD i 0 = 0) :
    ∀ (fuel : ℕ) (c : List ℕ), g.scanLoop samples pos mn mx c fuel = false := by
  intro fuel
  induction fuel with
  | zero => intro c; rfl
  | succ fuel ih =>
    intro c
    have hc : g.conflictAt samples pos c = false := by
      unfold BackgroundGrid.conflictAt
      rw [hz (g.calc_idx c)]
    simp only [BackgroundGrid.scanLoop, hc, Bool.false_eq_true, if_false]
    split
    · rfl
    · exact ih (odoNext mn mx c)

/-- `BackgroundGrid::insert` has no side effect when it rejects: on either
error the grid and the sample store are returned unchanged. -/
theorem insert_not_ok_unchanged {g : BackgroundGrid α} {pos : List α}
    {samples : List (List α)} {r : InsertRes} {g' : BackgroundGrid α}
    {samples' : List (List α)}
    (h : g.insert pos samples = some (r, g', samples'))
    (hr : ∀ id, r ≠ InsertRes.ok id) : g' = g ∧ samples' = samples := by
  unfold BackgroundGrid.insert at h
  split at h
  · simp only [Option.some.injEq, Prod.mk.injEq] at h
    exact ⟨h.2.1.symm, h.2.2.symm⟩
  · split at h
    · cases h
    · split at h
      · simp only [Option.some.injEq, Prod.mk.injEq] at h
        exact ⟨h.2.1.symm, h.2.2.symm⟩
      · simp only [Option.some.injEq, Prod.mk.injEq] at h
        exact absurd h.1.symm (hr _)

/-- Anatomy of a successful `BackgroundGrid::insert`: the returned id is the
new store length, the candidate is appended, exactly the candidate's home cell
of the `data` array is written, the candidate passed the domain check, and the
whole scan window was certified conflict-free. -/
theorem insert_ok_shape {g : BackgroundGrid α} {pos : List α}
    {samples : List (List α)} {id : ℕ} {g' : BackgroundGrid α}
    {samples' : List (List α)}
    (h : g.insert pos samples = some (InsertRes.ok id, g', samples')) :
    id = samples.length + 1 ∧
      samples' = samples ++ [pos] ∧
      g'.data = g.data.set (g.calc_idx (g.cellOf pos)) (samples.length + 1) ∧
      g'.dimensions = g.dimensions ∧ g'.min_dst_sqr = g.min_dst_sqr ∧
      g'.cell_size = g.cell_size ∧ g'.cell_count = g.cell_count ∧
      g'.cell_multiplicators = g.cell_multiplicators ∧
      (∀ p ∈ pos.zip g.dimensions, 0 ≤ p.1 ∧ p.1 < p.2) ∧
      pos ≠ [] ∧
      g.scanLoop samples pos (g.minCell (g.cellOf pos))
        (g.maxCell (g.cellOf pos)) (g.minCell (g.cellOf pos))
        (scanFuel (g.minCell (g.cellOf pos))
          (g.maxCell (g.cellOf pos))) = false := by
  unfold BackgroundGrid.insert at h
  split at h
  · simp only [Option.some.injEq, Prod.mk.injEq] at h
    cases h.1
  · rename_i hcond
    split at h
    · cases h
    · rename_i hcell
      split at h
      · simp only [Option.some.injEq, Prod.mk.injEq] at h
        cases h.1
      · rename_i hscan
        simp only [Option.some.injEq, Prod.mk.injEq,
          InsertRes.ok.injEq] at h
        obtain ⟨hid, hg, hs⟩ := h
        subst hg
        subst hs
        refine ⟨hid.symm, rfl, rfl, rfl, rfl, rfl, rfl, rfl, ?_, ?_, ?_⟩
        · intro p hp
          by_contra hcon
          apply hcond
          rw [List.any_eq_true]
          refine ⟨p, hp, ?_⟩
          simp only [Bool.or_eq_true, decide_eq_true_eq]
          rcases lt_or_le p.1 0 with hx | hx
          · exact Or.inl hx
          · rcases le_or_lt p.2 p.1 with hy | hy
            · exact Or.inr hy
            · exact absurd ⟨hx, hy⟩ hcon
        · intro hcon
          apply hcell
          rw [hcon]
          rfl
        · exact Bool.eq_false_iff.mpr hscan

/-- The only panic of `BackgroundGrid::insert` is the indexing of an empty
cell index; a nonempty candidate never panics. -/
theorem insert_ne_none {g : BackgroundGrid α} {pos : List α}
    {samples : List (List α)} (hpos : pos ≠ []) :
    g.insert pos samples ≠ none := by
  unfold BackgroundGrid.insert
  split
  · exact fun hcon => Option.noConfusion hcon
  · split
    · rename_i hcell
      exfalso
      apply hpos
      have := hcell
      rwa [BackgroundGrid.cellOf, List.map_eq_nil_iff] at this
    · split
      · exact fun hcon => Option.noConfusion hcon
      · exact fun hcon => Option.noConfusion hcon

theorem foldl_add_init {β : Type} (f : β → α) :
    ∀ (l : List β) (a : α),
      l.foldl (fun accu p => accu + f p) a =
        a + l.foldl (fun accu p => accu + f p) 0 := by
  intro l
  induction l with
  | nil => intro a; simp
  | cons x xs ih =>
    intro a
    simp only [List.foldl_cons]
    rw [ih (a + f x), ih (0 + f x)]
    ring

theorem dst_sqr_nil_left (y : List α) : dst_sqr ([] : List α) y = 0 := rfl

theorem dst_sqr_cons (x y : α) (xs ys : List α) :
    dst_sqr (x :: xs) (y :: ys) = (x - y) * (x - y) + dst_sqr xs ys := by
  unfold dst_sqr
  simp only [List.zip_cons_cons, List.foldl_cons, zero_add]
  exact foldl_add_init (fun p : α × α => (p.1 - p.2) * (p.1 - p.2))
    (xs.zip ys) ((x - y) * (x - y))

theorem dst_sqr_nonneg : ∀ (x y : List α), 0 ≤ dst_sqr x y := by
  intro x
  induction x with
  | nil => intro y; rw [dst_sqr_nil_left]
  | cons a xs ih =>
    intro y
    cases y with
    | nil => exact le_of_eq rfl
    | cons b ys =>
      rw [dst_sqr_cons]
      have h1 : 0 ≤ (a - b) * (a - b) := mul_self_nonneg _
      have h2 := ih ys
      linarith

/-- Two nonnegative coordinates with the same owning cell differ by less than
one cell size, hence their squared difference is less than the squared cell
size. -/
theorem sq_diff_lt_of_same_cell {cs x y : α} (hcs : 0 < cs) (hx : 0 ≤ x)
    (hy : 0 ≤ y) (h : (⌊x / cs⌋).toNat = (⌊y / cs⌋).toNat) :
    (x - y) * (x - y) < cs * cs := by
  have hfx : 0 ≤ ⌊x / cs⌋ := Int.floor_nonneg.mpr (div_nonneg hx hcs.le)
  have hfy : 0 ≤ ⌊y / cs⌋ := Int.floor_nonneg.mpr (div_nonneg hy hcs.le)
  have hf : ⌊x / cs⌋ = ⌊y / cs⌋ := by omega
  have h1 : x / cs < y / cs + 1 := by
    have ha : x / cs < (⌊x / cs⌋ : α) + 1 := Int.lt_floor_add_one _
    have hb : (⌊y / cs⌋ : α) ≤ y / cs := Int.floor_le _
    rw [hf] at ha
    linarith
  have h2 : y / cs < x / cs + 1 := by
    have ha : y / cs < (⌊y / cs⌋ : α) + 1 := Int.lt_floor_add_one _
    have hb : (⌊x / cs⌋ : α) ≤ x / cs := Int.floor_le _
    rw [← hf] at ha
    linarith
  have hxy : x - y < cs := by
    have hd : x / cs - y / cs < 1 := by linarith
    have := mul_lt_mul_of_pos_right hd hcs
    rw [sub_mul, div_mul_cancel₀ _ (ne_of_gt hcs),
      div_mul_cancel₀ _ (ne_of_gt hcs), one_mul] at this
    linarith
  have hyx : y - x < cs := by
    have hd : y / cs - x / cs < 1 := by linarith
    have := mul_lt_mul_of_pos_right hd hcs
    rw [sub_mul, div_mul_cancel₀ _ (ne_of_gt hcs),
      div_mul_cancel₀ _ (ne_of_gt hcs), one_mul] at this
    linarith
  have := sq_lt_sq' (by linarith : -cs < x - y) hxy
  simpa [pow_two] using this

/-- An in-domain coordinate owns a cell index strictly below the axis cell
count. -/
theorem cell_lt_count {cs x d : α} (hcs : 0 < cs) (hx : 0 ≤ x) (hxd : x < d) :
    (⌊x / cs⌋).toNat < (⌈d / cs⌉).toNat := by
  have h1 : ⌊x / cs⌋ < ⌈d / cs⌉ := by
    have hle : (⌊x / cs⌋ : α) ≤ x / cs := Int.floor_le _
    have hlt : x / cs < d / cs := by gcongr
    have hce : d / cs ≤ (⌈d / cs⌉ : α) := Int.le_ceil _
    have : (⌊x / cs⌋ : α) < (⌈d / cs⌉ : α) := by linarith
    exact_mod_cast this
  have h2 : 0 ≤ ⌊x / cs⌋ := Int.floor_nonneg.mpr (div_nonneg hx hcs.le)
  omega

/-- Recursive form of the mixed-radix flattening with radices `cc`, least
significant digit first. -/
def radixVal : List ℕ → List ℕ → ℕ
  | _, [] => 0
  | [], _ :: _ => 0
  | b :: bs, x :: xs => x + b * radixVal bs xs

theorem foldl_multsAux :
    ∀ (cc : List ℕ) (a : ℕ) (c : List ℕ) (s : ℕ), c.length ≤ cc.length →
      ((multsAux a cc).zip c).foldl (fun accu p => accu + p.1 * p.2) s =
        s + a * radixVal cc c := by
  intro cc
  induction cc with
  | nil =>
    intro a c s h
    cases c with
    | nil => simp [multsAux, radixVal]
    | cons x xs => simp at h
  | cons b bs ih =>
    intro a c s h
    cases c with
    | nil => simp [radixVal]
    | cons x xs =>
      simp only [multsAux, List.zip_cons_cons, List.foldl_cons, radixVal]
      rw [ih (a * b) xs (s + a * x) (by simpa using h)]
      ring

/-- The fold of `BackgroundGrid::calc_idx` computes the mixed-radix value with
radices `cell_count`, for a nonempty cell index of full dimension. -/
theorem calc_idx_eq_radixVal {g : BackgroundGrid α}
    (hmults : g.cell_multiplicators = multsAux 1 g.cell_count) :
    ∀ (c : List ℕ), c ≠ [] → c.length ≤ g.cell_count.length →
      g.calc_idx c = radixVal g.cell_count c := by
  intro c hne hlen
  cases c with
  | nil => exact absurd rfl hne
  | cons x xs =>
    cases hcc : g.cell_count with
    | nil => rw [hcc] at hlen; simp at hlen
    | cons b bs =>
      unfold BackgroundGrid.calc_idx
      rw [hmults, hcc]
      simp only [multsAux, List.zip_cons_cons, List.drop_succ_cons,
        List.drop_zero, List.headD_cons, radixVal]
      rw [foldl_multsAux bs (1 * b) xs x
        (by rw [hcc] at hlen; simpa using hlen)]
      ring

theorem radixVal_lt_prod :
    ∀ (cc c : List ℕ), c.length = cc.length →
      (∀ p ∈ cc.zip c, p.2 < p.1) → radixVal cc c < cc.prod := by
  intro cc
  induction cc with
  | nil =>
    intro c h hb
    cases c with
    | nil => simp [radixVal]
    | cons x xs => simp at h
  | cons b bs ih =>
    intro c h hb
    cases c with
    | nil => simp at h
    | cons x xs =>
      simp only [radixVal, List.prod_cons]
      have hx : x < b := by
        have := hb (b, x) (by simp [List.zip_cons_cons])
        exact this
      have hrec : radixVal bs xs < bs.prod := by
        refine ih xs (by simpa using h) ?_
        intro p hp
        exact hb p (by simp [List.zip_cons_cons, hp])
      calc x + b * radixVal bs xs < b + b * radixVal bs xs := by omega
      _ = b * (radixVal bs xs + 1) := by ring
      _ ≤ b * bs.prod := Nat.mul_le_mul_left b hrec

theorem radixVal_inj :
    ∀ (cc c d : List ℕ), c.length = cc.length → d.length = cc.length →
      (∀ p ∈ cc.zip c, p.2 < p.1) → (∀ p ∈ cc.zip d, p.2 < p.1) →
      radixVal cc c = radixVal cc d → c = d := by
  intro cc
  induction cc with
  | nil =>
    intro c d hc hd _ _ _
    cases c with
    | nil => cases d with
      | nil => rfl
      | cons z ds => simp at hd
    | cons y cs => simp at hc
  | cons b bs ih =>
    intro c d hc hd hbc hbd h
    cases c with
    | nil => simp at hc
    | cons y cs =>
      cases d with
      | nil => simp at hd
      | cons z ds =>
        simp only [radixVal] at h
        have hy : y < b := hbc (b, y) (by simp [List.zip_cons_cons])
        have hz : z < b := hbd (b, z) (by simp [List.zip_cons_cons])
        have hmod := congrArg (· % b) h
        simp only [Nat.add_mul_mod_self_left, Nat.mod_eq_of_lt hy,
          Nat.mod_eq_of_lt hz] at hmod
        have hb0 : 0 < b := by omega
        have hdiv := congrArg (· / b) h
        simp only [Nat.add_mul_div_left _ _ hb0, Nat.div_eq_of_lt hy,
          Nat.div_eq_of_lt hz, Nat.zero_add] at hdiv
        subst hmod
        rw [ih cs ds (by simpa using hc) (by simpa using hd)
          (fun p hp => hbc p (by simp [List.zip_cons_cons, hp]))
          (fun p hp => hbd p (by simp [List.zip_cons_cons, hp])) hdiv]

theorem getD_set_self (l : List ℕ) (i v : ℕ) (h : i < l.length) :
    (l.set i v).getD i 0 = v := by
  rw [List.getD_eq_getElem?_getD, List.getElem?_set_self h]
  rfl

theorem getD_set_ne (l : List ℕ) (i j v : ℕ) (h : i ≠ j) :
    (l.set i v).getD j 0 = l.getD j 0 := by
  rw [List.getD_eq_getElem?_getD, List.getElem?_set_ne h,
    ← List.getD_eq_getElem?_getD]

theorem getD_append_left {β : Type} (l l' : List β) (d : β) (i : ℕ)
    (h : i < l.length) : (l ++ l').getD i d = l.getD i d := by
  rw [List.getD_eq_getElem?_getD, List.getElem?_append_left h,
    ← List.getD_eq_getElem?_getD]

theorem getD_append_right_last {β : Type} (l : List β) (x d : β) :
    (l ++ [x]).getD l.length d = x := by
  rw [List.getD_eq_getElem?_getD, List.getElem?_append_right (le_refl _)]
  simp

theorem getD_eq_zero_of_ge (l : List ℕ) (i : ℕ) (h : l.length ≤ i) :
    l.getD i 0 = 0 := by
  rw [List.getD_eq_getElem?_getD, List.getElem?_eq_none h]
  rfl

/-- Invariant of a grid/store pair, established by `BackgroundGrid.new` and
preserved by `BackgroundGrid.insert`. The structural conjuncts record how
`BackgroundGrid::new` derived the grid fields (with the cell size related to
the squared minimum distance as in the source, where
`cell_size = min_distance / sqrt D`, so `D · cell_size² = min_distance²`;
only `≤` is needed). The content conjuncts say the store and the cell array
describe each other: every stored sample is in-domain with full dimension and
its home cell holds its id, and every non-zero cell entry is the id of a
stored sample whose home cell is that cell. -/
structure GridInv (g : BackgroundGrid α) (samples : List (List α)) : Prop where
  cs_pos : 0 < g.cell_size
  md_pos : 0 < g.min_dst_sqr
  cs_spec : (g.dimensions.length : α) * (g.cell_size * g.cell_size) ≤
    g.min_dst_sqr
  dims_pos : ∀ d ∈ g.dimensions, 0 < d
  count_eq : g.cell_count =
    g.dimensions.map (fun d => (⌈d / g.cell_size⌉).toNat)
  mults_eq : g.cell_multiplicators = multsAux 1 g.cell_count
  data_len : g.data.length = g.cell_count.prod
  samp_len : ∀ p ∈ samples, p.length = g.dimensions.length
  samp_dom : ∀ p ∈ samples, ∀ q ∈ p.zip g.dimensions, 0 ≤ q.1 ∧ q.1 < q.2
  samp_home : ∀ k, k < samples.length →
    g.data.getD (g.calc_idx (g.cellOf (samples.getD k []))) 0 = k + 1
  data_sound : ∀ i, i < g.data.length → g.data.getD i 0 = 0 ∨
    (1 ≤ g.data.getD i 0 ∧ g.data.getD i 0 ≤ samples.length ∧
      g.calc_idx (g.cellOf (samples.getD (g.data.getD i 0 - 1) [])) = i)

theorem calc_idx_congr {g g' : BackgroundGrid α}
    (h : g'.cell_multiplicators = g.cell_multiplicators) (c : List ℕ) :
    g'.calc_idx c = g.calc_idx c := by
  unfold BackgroundGrid.calc_idx
  rw [h]

theorem cellOf_congr {g g' : BackgroundGrid α}
    (h : g'.cell_size = g.cell_size) (pos : List α) :
    g'.cellOf pos = g.cellOf pos := by
  unfold BackgroundGrid.cellOf
  rw [h]

theorem cellOf_length (g : BackgroundGrid α) (pos : List α) :
    (g.cellOf pos).length = pos.length := List.length_map _ _

/-- Pointwise: every in-domain coordinate owns a cell strictly below the axis
cell count. -/
theorem cellOf_pointwise_lt {cs : α} (hcs : 0 < cs) :
    ∀ (pos dims : List α), pos.length = dims.length →
      (∀ p ∈ pos.zip dims, 0 ≤ p.1 ∧ p.1 < p.2) →
      ∀ q ∈ (dims.map (fun d => (⌈d / cs⌉).toNat)).zip
          (pos.map (fun x => (⌊x / cs⌋).toNat)), q.2 < q.1 := by
  intro pos
  induction pos with
  | nil =>
    intro dims h hdom q hq
    cases dims with
    | nil => simp at hq
    | cons d ds => simp at h
  | cons x xs ih =>
    intro dims h hdom q hq
    cases dims with
    | nil => simp at h
    | cons d ds =>
      simp only [List.map_cons, List.zip_cons_cons, List.mem_cons] at hq
      rcases hq with hq | hq
      · subst hq
        have hd := hdom (x, d) (by simp [List.zip_cons_cons])
        exact cell_lt_count hcs hd.1 hd.2
      · exact ih ds (by simpa using h)
          (fun p hp => hdom p (by simp [List.zip_cons_cons, hp])) q hq

/-- The candidate's own cell lies inside the scan window `[minCell, maxCell]`. -/
theorem inBox_own (offs : ℕ) :
    ∀ (cc c : List ℕ), c.length = cc.length →
      (∀ p ∈ cc.zip c, p.2 < p.1) →
      InBox (c.map (fun x => x - offs))
        ((c.zip cc).map (fun p => min (p.1 + offs) (p.2 - 1))) c := by
  intro cc
  induction cc with
  | nil =>
    intro c h hb
    cases c with
    | nil => trivial
    | cons x xs => simp at h
  | cons b bs ih =>
    intro c h hb
    cases c with
    | nil => simp at h
    | cons x xs =>
      have hx : x < b := hb (b, x) (by simp [List.zip_cons_cons])
      simp only [List.map_cons, List.zip_cons_cons, InBox]
      refine ⟨by omega, ?_, ?_⟩
      · exact le_min (by omega) (by omega)
      · exact ih xs (by simpa using h)
          (fun p hp => hb p (by simp [List.zip_cons_cons, hp]))

/-- Two points of full dimension occupying the same cell on every axis are
closer than `sqrt D` cell sizes, hence their squared distance is less than
`D · cell_size²`. -/
theorem dst_sqr_lt_of_same_cells {cs : α} (hcs : 0 < cs) :
    ∀ (x y : List α), x ≠ [] → x.length = y.length →
      (∀ p ∈ x.zip y, 0 ≤ p.1 ∧ 0 ≤ p.2 ∧
        (⌊p.1 / cs⌋).toNat = (⌊p.2 / cs⌋).toNat) →
      dst_sqr x y < (x.length : α) * (cs * cs) := by
  intro x
  induction x with
  | nil => intro y h; exact absurd rfl h
  | cons a xs ih =>
    intro y _ hlen hcells
    cases y with
    | nil => simp at hlen
    | cons b ys =>
      have hhead := hcells (a, b) (by simp [List.zip_cons_cons])
      have hab : (a - b) * (a - b) < cs * cs :=
        sq_diff_lt_of_same_cell hcs hhead.1 hhead.2.1 hhead.2.2
      rw [dst_sqr_cons]
      cases xs with
      | nil =>
        cases ys with
        | nil =>
          rw [dst_sqr_nil_left]
          simpa using hab
        | cons c cs' => simp at hlen
      | cons a' xs' =>
        have htail : dst_sqr (a' :: xs') ys <
            (((a' :: xs').length : ℕ) : α) * (cs * cs) := by
          refine ih ys (by simp) (by simpa using hlen) ?_
          intro p hp
          exact hcells p (by simp [List.zip_cons_cons, hp])
        have hlen1 : ((a :: a' :: xs').length : α) =
            (((a' :: xs').length : ℕ) : α) + 1 := by
          push_cast [List.length_cons]
          ring
        rw [hlen1]
        have : (((a' :: xs').length : ℕ) : α) * (cs * cs) + (cs * cs) =
            ((((a' :: xs').length : ℕ) : α) + 1) * (cs * cs) := by ring
        linarith

/-- Equal images under a map give pointwise equal images along the zip. -/
theorem map_eq_map_pointwise {β γ : Type} (f : β → γ) :
    ∀ (x y : List β), x.map f = y.map f →
      ∀ p ∈ x.zip y, f p.1 = f p.2 := by
  intro x
  induction x with
  | nil => intro y h p hp; cases y <;> simp_all
  | cons a xs ih =>
    intro y h p hp
    cases y with
    | nil => simp at h
    | cons b ys =>
      simp only [List.map_cons, List.cons.injEq] at h
      simp only [List.zip_cons_cons, List.mem_cons] at hp
      rcases hp with hp | hp
      · subst hp
        exact h.1
      · exact ih ys h.2 p hp

theorem getD_mem {β : Type} (l : List β) (i : ℕ) (d : β) (h : i < l.length) :
    l.getD i d ∈ l := by
  rw [List.getD_eq_getElem?_getD, List.getElem?_eq_getElem h]
  exact List.getElem_mem h

theorem mem_zip_left_of_length {β γ : Type} :
    ∀ {l : List β} {l' : List γ}, l.length = l'.length → ∀ {a : β}, a ∈ l →
      ∃ b, (a, b) ∈ l.zip l' := by
  intro l
  induction l with
  | nil => intro l' h a ha; cases ha
  | cons x xs ih =>
    intro l' h a ha
    cases l' with
    | nil => simp at h
    | cons y ys =>
      rcases List.mem_cons.mp ha with ha | ha
      · exact ⟨y, by simp [List.zip_cons_cons, ha]⟩
      · obtain ⟨b, hb⟩ := ih (by simpa using h) ha
        exact ⟨b, by simp [List.zip_cons_cons, hb]⟩

theorem getD_replicate_zero (n i : ℕ) :
    (List.replicate n 0).getD i 0 = 0 := by
  rw [List.getD_eq_getElem?_getD, List.getElem?_replicate]
  split <;> rfl

theorem cellOf_bounds {g : BackgroundGrid α} (hcs : 0 < g.cell_size)
    (hcount : g.cell_count =
      g.dimensions.map (fun d => (⌈d / g.cell_size⌉).toNat))
    {pos : List α} (hlen : pos.length = g.dimensions.length)
    (hdom : ∀ p ∈ pos.zip g.dimensions, 0 ≤ p.1 ∧ p.1 < p.2) :
    (g.cellOf pos).length = g.cell_count.length ∧
      ∀ p ∈ g.cell_count.zip (g.cellOf pos), p.2 < p.1 := by
  constructor
  · rw [cellOf_length, hcount, List.length_map, hlen]
  · rw [hcount, BackgroundGrid.cellOf]
    exact cellOf_pointwise_lt hcs pos g.dimensions hlen hdom

theorem cellOf_ne_nil {g : BackgroundGrid α} {pos : List α} (h : pos ≠ []) :
    g.cellOf pos ≠ [] := by
  intro hcon
  exact h (by rwa [BackgroundGrid.cellOf, List.map_eq_nil_iff] at hcon)

/-- The linear home-cell index of an in-domain candidate is a valid index of
the `data` array. -/
theorem home_idx_lt {g : BackgroundGrid α} (hcs : 0 < g.cell_size)
    (hcount : g.cell_count =
      g.dimensions.map (fun d => (⌈d / g.cell_size⌉).toNat))
    (hmults : g.cell_multiplicators = multsAux 1 g.cell_count)
    (hdlen : g.data.length = g.cell_count.prod)
    {pos : List α} (hlen : pos.length = g.dimensions.length)
    (hdom : ∀ p ∈ pos.zip g.dimensions, 0 ≤ p.1 ∧ p.1 < p.2)
    (hne : pos ≠ []) :
    g.calc_idx (g.cellOf pos) < g.data.length := by
  obtain ⟨hclen, hcb⟩ := cellOf_bounds hcs hcount hlen hdom
  rw [calc_idx_eq_radixVal hmults _ (cellOf_ne_nil hne) (le_of_eq hclen),
    hdlen]
  exact radixVal_lt_prod _ _ hclen hcb

/-- Keystone: under the invariant, a successful insert writes into a cell
that held 0. The scan always visits the candidate's own cell; if that cell
held the id of a stored sample, that sample would share the candidate's cell,
hence lie strictly closer than the minimum distance
(`D · cell_size² ≤ min_dst_sqr`), and the scan would have rejected. -/
theorem insert_ok_home_empty {g : BackgroundGrid α} {pos : List α}
    {samples : List (List α)} {id : ℕ} {g' : BackgroundGrid α}
    {samples' : List (List α)} (hInv : GridInv g samples)
    (hlen : pos.length = g.dimensions.length)
    (h : g.insert pos samples = some (InsertRes.ok id, g', samples')) :
    g.data.getD (g.calc_idx (g.cellOf pos)) 0 = 0 := by
  obtain ⟨hid, hs, hd, _, _, _, _, _, hdom, hposne, hscan⟩ := insert_ok_shape h
  by_contra hne0
  obtain ⟨hclen, hcb⟩ := cellOf_bounds hInv.cs_pos hInv.count_eq hlen hdom
  obtain ⟨v, hv⟩ :
      ∃ v, g.data.getD (g.calc_idx (g.cellOf pos)) 0 = v + 1 := by
    refine ⟨g.data.getD (g.calc_idx (g.cellOf pos)) 0 - 1, ?_⟩
    omega
  have hbox : InBox (g.minCell (g.cellOf pos)) (g.maxCell (g.cellOf pos))
      (g.cellOf pos) := by
    rw [BackgroundGrid.minCell, BackgroundGrid.maxCell]
    exact inBox_own g.cell_offs g.cell_count (g.cellOf pos) hclen hcb
  have hconf := insert_scan_conflictAt hbox hscan
  unfold BackgroundGrid.conflictAt at hconf
  rw [hv] at hconf
  have hnlt : ¬ dst_sqr pos (samples.getD v []) < g.min_dst_sqr := by
    simpa using hconf
  have hidx_lt : g.calc_idx (g.cellOf pos) < g.data.length := by
    by_contra hge
    rw [getD_eq_zero_of_ge _ _ (le_of_not_lt hge)] at hv
    omega
  rcases hInv.data_sound _ hidx_lt with h0 | ⟨h1, h2, h3⟩
  · rw [hv] at h0
    omega
  · rw [hv] at h1 h2 h3
    have hvlen : v < samples.length := by omega
    simp only [Nat.add_sub_cancel] at h3
    have hq_mem : samples.getD v [] ∈ samples := getD_mem _ _ _ hvlen
    have hqlen : (samples.getD v []).length = g.dimensions.length :=
      hInv.samp_len _ hq_mem
    have hqdom := hInv.samp_dom _ hq_mem
    obtain ⟨hqclen, hqcb⟩ :=
      cellOf_bounds hInv.cs_pos hInv.count_eq hqlen hqdom
    have hqne : samples.getD v [] ≠ [] := by
      intro hcon
      rw [hcon] at hqlen
      have : g.dimensions ≠ [] := by
        intro hdcon
        rw [hdcon] at hlen
        exact hposne (List.length_eq_zero.mp (by simpa using hlen))
      exact this (List.length_eq_zero.mp hqlen.symm)
    have hcalc_pos := calc_idx_eq_radixVal hInv.mults_eq _
      (cellOf_ne_nil hposne) (le_of_eq hclen)
    have hcalc_q := calc_idx_eq_radixVal hInv.mults_eq _
      (cellOf_ne_nil hqne) (le_of_eq hqclen)
    have hrveq : radixVal g.cell_count (g.cellOf (samples.getD v [])) =
        radixVal g.cell_count (g.cellOf pos) := by
      rw [← hcalc_q, ← hcalc_pos, h3]
    have hcells : g.cellOf (samples.getD v []) = g.cellOf pos :=
      radixVal_inj _ _ _ hqclen hclen hqcb hcb hrveq
    have hfloors := map_eq_map_pointwise
      (fun x => (⌊x / g.cell_size⌋).toNat) pos (samples.getD v []) hcells.symm
    have hpw : ∀ p ∈ pos.zip (samples.getD v []), 0 ≤ p.1 ∧ 0 ≤ p.2 ∧
        (⌊p.1 / g.cell_size⌋).toNat = (⌊p.2 / g.cell_size⌋).toNat := by
      intro p hp
      obtain ⟨hp1, hp2⟩ := List.of_mem_zip hp
      obtain ⟨d1, hd1⟩ := mem_zip_left_of_length hlen hp1
      obtain ⟨d2, hd2⟩ := mem_zip_left_of_length hqlen hp2
      exact ⟨(hdom _ hd1).1, (hqdom _ hd2).1, hfloors p hp⟩
    have hlt := dst_sqr_lt_of_same_cells hInv.cs_pos pos
      (samples.getD v []) hposne (by rw [hqlen, hlen]) hpw
    refine hnlt (lt_of_lt_of_le hlt ?_)
    rw [hlen]
    exact hInv.cs_spec

/-- A freshly constructed grid (with a positive cell size satisfying the
cell-size relation and positive extents) satisfies the invariant with the
empty store. -/
theorem gridInv_new {dims : List α} {md cs : α} {g : BackgroundGrid α}
    (h : BackgroundGrid.new dims md cs = some g) (hcs : 0 < cs)
    (hspec : (dims.length : α) * (cs * cs) ≤ md * md)
    (hdims : ∀ d ∈ dims, 0 < d) : GridInv g [] := by
  unfold BackgroundGrid.new at h
  split at h
  · rename_i hmd
    simp only [Option.some.injEq] at h
    subst h
    refine ⟨hcs, mul_pos hmd hmd, hspec, hdims, rfl, rfl, ?_, ?_, ?_, ?_, ?_⟩
    · simp
    · intro p hp
      cases hp
    · intro p hp
      cases hp
    · intro k hk
      simp at hk
    · intro i hi
      left
      exact getD_replicate_zero _ _
  · cases h

/-- `BackgroundGrid::insert` preserves the grid/store invariant (for a
candidate of full dimension). -/
theorem insert_preserves_gridInv {g : BackgroundGrid α} {pos : List α}
    {samples : List (List α)} {r : InsertRes} {g' : BackgroundGrid α}
    {samples' : List (List α)} (hInv : GridInv g samples)
    (hlen : pos.length = g.dimensions.length)
    (h : g.insert pos samples = some (r, g', samples')) :
    GridInv g' samples' := by
  cases r with
  | errOob =>
    obtain ⟨hg, hs⟩ := insert_not_ok_unchanged h
      (fun id hcon => InsertRes.noConfusion hcon)
    subst hg
    subst hs
    exact hInv
  | errDist =>
    obtain ⟨hg, hs⟩ := insert_not_ok_unchanged h
      (fun id hcon => InsertRes.noConfusion hcon)
    subst hg
    subst hs
    exact hInv
  | ok id =>
    obtain ⟨hid, hs, hdata, hdim, hmd, hcs, hcnt, hmults, hdom, hposne,
      hscan⟩ := insert_ok_shape h
    have hempty := insert_ok_home_empty hInv hlen h
    have hhome_lt : g.calc_idx (g.cellOf pos) < g.data.length :=
      home_idx_lt hInv.cs_pos hInv.count_eq hInv.mults_eq hInv.data_len
        hlen hdom hposne
    subst hs
    have hci : ∀ c, g'.calc_idx c = g.calc_idx c := calc_idx_congr hmults
    have hco : ∀ p, g'.cellOf p = g.cellOf p := cellOf_congr hcs
    refine ⟨?_, ?_, ?_, ?_, ?_, ?_, ?_, ?_, ?_, ?_, ?_⟩
    · rw [hcs]; exact hInv.cs_pos
    · rw [hmd]; exact hInv.md_pos
    · rw [hdim, hmd, hcs]; exact hInv.cs_spec
    · rw [hdim]; exact hInv.dims_pos
    · rw [hcnt, hdim, hcs]; exact hInv.count_eq
    · rw [hmults, hcnt]; exact hInv.mults_eq
    · rw [hdata, List.length_set, hcnt]; exact hInv.data_len
    · intro p hp
      rw [hdim]
      rcases List.mem_append.mp hp with hp | hp
      · exact hInv.samp_len _ hp
      · rw [List.mem_singleton.mp hp]
        exact hlen
    · intro p hp
      rw [hdim]
      rcases List.mem_append.mp hp with hp | hp
      · exact hInv.samp_dom _ hp
      · rw [List.mem_singleton.mp hp]
        exact hdom
    · intro k hk
      rw [List.length_append, List.length_singleton] at hk
      rw [hci, hco, hdata]
      rcases Nat.lt_succ_iff_lt_or_eq.mp hk with hk | hk
      · rw [getD_append_left _ _ _ _ hk]
        have hne : g.calc_idx (g.cellOf (samples.getD k [])) ≠
            g.calc_idx (g.cellOf pos) := by
          intro hcon
          have hh := hInv.samp_home k hk
          rw [hcon, hempty] at hh
          omega
        rw [getD_set_ne _ _ _ _ (Ne.symm hne)]
        exact hInv.samp_home k hk
      · subst hk
        rw [getD_append_right_last, getD_set_self _ _ _ hhome_lt]
    · intro i hi
      rw [hdata, List.length_set] at hi
      rw [hdata]
      by_cases hieq : i = g.calc_idx (g.cellOf pos)
      · subst hieq
        rw [getD_set_self _ _ _ hhome_lt]
        right
        refine ⟨by omega, ?_, ?_⟩
        · rw [List.length_append, List.length_singleton]
        · rw [hci, hco, Nat.add_sub_cancel, getD_append_right_last]
      · rw [getD_set_ne _ _ _ _ (fun hcon => hieq hcon.symm)]
        rcases hInv.data_sound i hi with h0 | ⟨h1, h2, h3⟩
        · left
          exact h0
        · right
          refine ⟨h1, ?_, ?_⟩
          · rw [List.length_append, List.length_singleton]
            omega
          · rw [hci, hco, getD_append_left _ _ _ _ (by omega)]
            exact h3

theorem polar_to_cartesian_nil (sinf cosf : α → α) (r : α) :
    polar_to_cartesian sinf cosf r [] = [r] := by
  unfold polar_to_cartesian
  simp

theorem polar_to_cartesian_cons (sinf cosf : α → α) (r a : α)
    (angles : List α) :
    polar_to_cartesian sinf cosf r (a :: angles) =
      r * cosf a :: polar_to_cartesian sinf cosf (r * sinf a) angles := by
  unfold polar_to_cartesian
  simp only [List.map_cons, List.length_cons]
  rw [List.range_succ_eq_map]
  simp only [List.map_cons, List.map_map, List.take_zero, List.foldl_nil,
    List.getElem?_cons_zero]
  congr 1
  apply List.map_congr_left
  intro i hi
  simp only [Function.comp_apply, List.take_succ_cons, List.foldl_cons,
    List.getElem?_cons_succ]

theorem polar_to_cartesian_length (sinf cosf : α → α) (r : α)
    (angles : List α) :
    (polar_to_cartesian sinf cosf r angles).length = angles.length + 1 := by
  unfold polar_to_cartesian
  simp

theorem sumSq_nil : sumSq ([] : List α) = 0 := rfl

theorem sumSq_cons (x : α) (xs : List α) :
    sumSq (x :: xs) = x * x + sumSq xs := by
  unfold sumSq
  simp only [List.foldl_cons, zero_add]
  exact foldl_add_init (fun x : α => x * x) xs (x * x)

/-- The hyperspherical offset has squared norm exactly `radius²` whenever the
sine and cosine functions satisfy the Pythagorean identity. -/
theorem sumSq_polar_to_cartesian (sinf cosf : α → α)
    (hpyth : ∀ x, sinf x * sinf x + cosf x * cosf x = 1) :
    ∀ (angles : List α) (r : α),
      sumSq (polar_to_cartesian sinf cosf r angles) = r * r := by
  intro angles
  induction angles with
  | nil =>
    intro r
    rw [polar_to_cartesian_nil, sumSq_cons, sumSq_nil, add_zero]
  | cons a as ih =>
    intro r
    rw [polar_to_cartesian_cons, sumSq_cons, ih (r * sinf a)]
    have h := hpyth a
    ring_nf
    ring_nf at h
    nlinarith [hpyth a]

/-- Adding an offset vector to a point moves it by exactly the norm of the
offset: the candidate construction of `BlueNoiseIterator::next`. -/
theorem dst_sqr_offset :
    ∀ (offs cur : List α), cur.length = offs.length →
      dst_sqr ((offs.zip cur).map (fun p => p.2 + p.1)) cur = sumSq offs := by
  intro offs
  induction offs with
  | nil =>
    intro cur h
    have hc : cur = [] := List.length_eq_zero.mp (by simpa using h)
    subst hc
    rfl
  | cons x xs ih =>
    intro cur h
    cases cur with
    | nil => simp at h
    | cons y ys =>
      simp only [List.zip_cons_cons, List.map_cons]
      rw [dst_sqr_cons, sumSq_cons, ih ys (by simpa using h)]
      congr 1
      ring

theorem count_zero_set_lt :
    ∀ (l : List ℕ) (i v : ℕ), i < l.length → l.getD i 0 = 0 → v ≠ 0 →
      (l.set i v).count 0 < l.count 0 := by
  intro l
  induction l with
  | nil => intro i v hi _ _; simp at hi
  | cons x xs ih =>
    intro i v hi h0 hv
    cases i with
    | zero =>
      simp only [List.getD_cons_zero] at h0
      subst h0
      simp [List.set_cons_zero, List.count_cons, hv]
    | succ i =>
      simp only [List.getD_cons_succ] at h0
      simp only [List.set_cons_succ, List.count_cons]
      have := ih i v (by simpa using hi) h0 hv
      omega

/-- Invariant of a running iterator state, established at construction and
preserved by every pull (`next_preserves`). Besides the grid/store invariant
it records: the grid belongs to this iterator, the construction-time validity
conditions, the validity of the work-queue ids, the parent property of every
sample after the first, and the modelling constraints on the random tape and
on `sinf`/`cosf` (which hold for the real `gen_range`, `f64::sin`,
`f64::cos`). -/
structure IterInv (s : BlueNoiseIterator α) : Prop where
  grid_inv : GridInv s.bggrid s.samples
  grid_dims : s.bggrid.dimensions = s.dimensions
  grid_mdsq : s.bggrid.min_dst_sqr = s.min_distance * s.min_distance
  dims_ne : s.dimensions ≠ []
  dims_pos : ∀ d ∈ s.dimensions, 0 < d
  md_pos : 0 < s.min_distance
  ids_act : ∀ i ∈ s.active, 1 ≤ i ∧ i ≤ s.samples.length
  ids_next : ∀ i ∈ s.next_active, 1 ≤ i ∧ i ≤ s.samples.length
  empty_start : s.samples = [] → s.active = [] ∧ s.next_active = []
  parent : ∀ i, 1 ≤ i → i < s.samples.length → ∃ j, j < i ∧
    dst_sqr (s.samples.getD i []) (s.samples.getD j []) <
      (2 * s.min_distance) * (2 * s.min_distance)
  tape_init_len : s.rng_initial.length = s.dimensions.length
  tape_init_dom : ∀ p ∈ s.rng_initial.zip s.dimensions, 0 ≤ p.1 ∧ p.1 < p.2
  tape_radius : ∀ k, s.min_distance ≤ s.rng_radius k ∧
    s.rng_radius k < 2 * s.min_distance
  tape_angles : ∀ k, (s.rng_angles k).length = s.dimensions.length - 1
  pyth : ∀ x, s.sinf x * s.sinf x + s.cosf x * s.cosf x = 1

/-- The invariant ignores the cursor and the RNG counter. -/
theorem iterInv_ctr_idx {s : BlueNoiseIterator α} (h : IterInv s)
    (n m : ℕ) : IterInv { s with rng_ctr := n, active_idx := m } := by
  obtain ⟨h1, h2, h3, h4, h5, h6, h7, h8, h9, h10, h11, h12, h13, h14,
    h15⟩ := h
  exact ⟨h1, h2, h3, h4, h5, h6, h7, h8, h9, h10, h11, h12, h13, h14, h15⟩

/-- On a grid paired with an empty store the invariant forces every cell to be
empty. -/
theorem gridInv_empty_all_zero {g : BackgroundGrid α}
    (hInv : GridInv g ([] : List (List α))) :
    ∀ i, g.data.getD i 0 = 0 := by
  intro i
  by_cases hi : i < g.data.length
  · rcases hInv.data_sound i hi with h0 | ⟨h1, h2, _⟩
    · exact h0
    · rw [List.length_nil] at h2
      omega
  · exact getD_eq_zero_of_ge _ _ (le_of_not_lt hi)

/-- Evaluation of `BackgroundGrid::insert` on an in-domain candidate when the
whole grid is empty: always accepted. -/
theorem insert_of_clean {g : BackgroundGrid α} {pos : List α}
    (hdom : ∀ p ∈ pos.zip g.dimensions, 0 ≤ p.1 ∧ p.1 < p.2)
    (hne : pos ≠ []) (hz : ∀ i, g.data.getD i 0 = 0)
    (samples : List (List α)) :
    g.insert pos samples = some (InsertRes.ok (samples.length + 1),
      { g with data := (g.data.set (g.calc_idx (g.cellOf pos))
          (samples.length + 1)) },
      samples ++ [pos]) := by
  unfold BackgroundGrid.insert
  have h1 : ¬ ((pos.zip g.dimensions).any
      (fun p => decide (p.1 < 0) || decide (p.2 ≤ p.1))) = true := by
    rw [List.any_eq_true]
    rintro ⟨p, hp, hpt⟩
    have := hdom p hp
    simp only [Bool.or_eq_true, decide_eq_true_eq] at hpt
    rcases hpt with hpt | hpt
    · exact absurd hpt (not_lt.mpr this.1)
    · exact absurd hpt (not_le.mpr this.2)
  rw [if_neg h1, if_neg (cellOf_ne_nil hne),
    scanLoop_all_zero hz _ _, if_neg (by simp)]

/-- Behaviour of the retry loop of `BlueNoiseIterator::next` under the
invariant. It never panics. On acceptance the invariant holds again, exactly
the accepted candidate was appended to the store, one grid cell was consumed,
the cursor advanced by one, and the work queue and scalar fields are as in the
source. On exhaustion only the RNG counter has moved, by one per attempt. -/
theorem attempts_spec :
    ∀ (k : ℕ) (s : BlueNoiseIterator α), IterInv s →
      ∀ (cur_id : ℕ), 1 ≤ cur_id → cur_id ≤ s.samples.length →
      (BlueNoiseIterator.attempts s cur_id
          (s.samples.getD (cur_id - 1) []) k ≠ AttemptRes.panicked) ∧
      (∀ p s2, BlueNoiseIterator.attempts s cur_id
          (s.samples.getD (cur_id - 1) []) k = AttemptRes.accepted p s2 →
        IterInv s2 ∧ s2.samples = s.samples ++ [p] ∧
          s2.bggrid.emptyCells < s.bggrid.emptyCells ∧
          s2.active = s.active ∧ s2.active_idx = s.active_idx + 1 ∧
          s2.dimensions = s.dimensions ∧
          s2.min_distance = s.min_distance ∧ s2.k_abort = s.k_abort) ∧
      (∀ s2, BlueNoiseIterator.attempts s cur_id
          (s.samples.getD (cur_id - 1) []) k = AttemptRes.exhausted s2 →
        s2 = { s with rng_ctr := s.rng_ctr + k }) := by
  intro k
  induction k with
  | zero =>
    intro s hInv cur_id hcur1 hcur2
    refine ⟨fun hcon => AttemptRes.noConfusion hcon,
      fun p s2 hcon => AttemptRes.noConfusion hcon, fun s2 h2 => ?_⟩
    cases h2
    rfl
  | succ k ih =>
    intro s hInv cur_id hcur1 hcur2
    have hD1 : 1 ≤ s.dimensions.length :=
      List.length_pos.mpr hInv.dims_ne
    have hcur_mem : s.samples.getD (cur_id - 1) [] ∈ s.samples :=
      getD_mem _ _ _ (by omega)
    have hcurlen : (s.samples.getD (cur_id - 1) []).length =
        s.dimensions.length := by
      have := hInv.grid_inv.samp_len _ hcur_mem
      rwa [hInv.grid_dims] at this
    have hofflen : (polar_to_cartesian s.sinf s.cosf
        (s.rng_radius s.rng_ctr) (s.rng_angles s.rng_ctr)).length =
        s.dimensions.length := by
      rw [polar_to_cartesian_length, hInv.tape_angles]
      omega
    have hcandlen : (((polar_to_cartesian s.sinf s.cosf
        (s.rng_radius s.rng_ctr) (s.rng_angles s.rng_ctr)).zip
          (s.samples.getD (cur_id - 1) [])).map
        (fun p => p.2 + p.1)).length = s.dimensions.length := by
      rw [List.length_map, List.length_zip, hofflen, hcurlen, Nat.min_self]
    have hcandne : (((polar_to_cartesian s.sinf s.cosf
        (s.rng_radius s.rng_ctr) (s.rng_angles s.rng_ctr)).zip
          (s.samples.getD (cur_id - 1) [])).map
        (fun p => p.2 + p.1)) ≠ [] := by
      intro hcon
      rw [hcon] at hcandlen
      simp only [List.length_nil] at hcandlen
      omega
    rcases hsplit : s.bggrid.insert
        (((polar_to_cartesian s.sinf s.cosf (s.rng_radius s.rng_ctr)
          (s.rng_angles s.rng_ctr)).zip
            (s.samples.getD (cur_id - 1) [])).map (fun p => p.2 + p.1))
        s.samples with _ | rgs
    · exact absurd hsplit (insert_ne_none hcandne)
    · obtain ⟨r, g2, samples2⟩ := rgs
      cases r with
      | ok id =>
        obtain ⟨hid, hsamp2, hdata, hdim, hmd, hcs, hcnt, hmults, hdom,
          hposne, hscan⟩ := insert_ok_shape hsplit
        have hlenb : (((polar_to_cartesian s.sinf s.cosf
            (s.rng_radius s.rng_ctr) (s.rng_angles s.rng_ctr)).zip
              (s.samples.getD (cur_id - 1) [])).map
            (fun p => p.2 + p.1)).length = s.bggrid.dimensions.length := by
          rw [hInv.grid_dims]
          exact hcandlen
        have hgi2 : GridInv g2 samples2 :=
          insert_preserves_gridInv hInv.grid_inv hlenb hsplit
        have hempty0 := insert_ok_home_empty hInv.grid_inv hlenb hsplit
        have hhome_lt := home_idx_lt hInv.grid_inv.cs_pos
          hInv.grid_inv.count_eq hInv.grid_inv.mults_eq
          hInv.grid_inv.data_len hlenb hdom hposne
        have hgetp : samples2.getD (id - 1) [] =
            (((polar_to_cartesian s.sinf s.cosf (s.rng_radius s.rng_ctr)
              (s.rng_angles s.rng_ctr)).zip
                (s.samples.getD (cur_id - 1) [])).map
              (fun p => p.2 + p.1)) := by
          rw [hid, hsamp2, Nat.add_sub_cancel, getD_append_right_last]
        have hdst : dst_sqr (((polar_to_cartesian s.sinf s.cosf
            (s.rng_radius s.rng_ctr) (s.rng_angles s.rng_ctr)).zip
              (s.samples.getD (cur_id - 1) [])).map (fun p => p.2 + p.1))
            (s.samples.getD (cur_id - 1) []) <
            (2 * s.min_distance) * (2 * s.min_distance) := by
          rw [dst_sqr_offset _ _ (by rw [hcurlen, hofflen]),
            sumSq_polar_to_cartesian s.sinf s.cosf hInv.pyth]
          have hr := hInv.tape_radius s.rng_ctr
          have h0r : 0 ≤ s.rng_radius s.rng_ctr :=
            le_trans hInv.md_pos.le hr.1
          exact mul_self_lt_mul_self h0r hr.2
        simp only [BlueNoiseIterator.attempts, hsplit]
        refine ⟨fun hcon => AttemptRes.noConfusion hcon,
          fun p s2 hacc => ?_, fun s2 hcon => AttemptRes.noConfusion hcon⟩
        cases hacc
        refine ⟨?_, ?_, ?_, rfl, rfl, rfl, rfl, rfl⟩
        · refine ⟨hgi2, ?_, ?_, hInv.dims_ne, hInv.dims_pos, hInv.md_pos,
            ?_, ?_, ?_, ?_, hInv.tape_init_len, hInv.tape_init_dom,
            hInv.tape_radius, hInv.tape_angles, hInv.pyth⟩
          · rw [hdim]
            exact hInv.grid_dims
          · rw [hmd]
            exact hInv.grid_mdsq
          · intro i hi
            have := hInv.ids_act i hi
            rw [hsamp2, List.length_append, List.length_singleton]
            omega
          · intro i hi
            rcases List.mem_append.mp hi with hi | hi
            · have := hInv.ids_next i hi
              rw [hsamp2, List.length_append, List.length_singleton]
              omega
            · rw [hsamp2, List.length_append, List.length_singleton]
              rcases List.mem_cons.mp hi with hi | hi
              · subst hi
                omega
              · rw [List.mem_singleton.mp hi, hid]
                omega
          · intro hcon
            rw [hsamp2] at hcon
            exact absurd hcon (by simp)
          · intro i h1i hilen
            rw [hsamp2, List.length_append, List.length_singleton] at hilen
            rcases Nat.lt_succ_iff_lt_or_eq.mp hilen with hilt | hieq
            · obtain ⟨j, hj, hdstp⟩ := hInv.parent i h1i hilt
              refine ⟨j, hj, ?_⟩
              rw [hsamp2, getD_append_left _ _ _ _ hilt,
                getD_append_left _ _ _ _ (by omega)]
              exact hdstp
            · subst hieq
              refine ⟨cur_id - 1, by omega, ?_⟩
              rw [hsamp2, getD_append_right_last,
                getD_append_left _ _ _ _ (by omega)]
              exact hdst
        · dsimp only
          rw [hgetp, hsamp2]
        · rw [BackgroundGrid.emptyCells, BackgroundGrid.emptyCells, hdata]
          exact count_zero_set_lt _ _ _ hhome_lt hempty0 (by omega)
      | errOob =>
        obtain ⟨hg2, hsm2⟩ := insert_not_ok_unchanged hsplit
          (fun i hcon => InsertRes.noConfusion hcon)
        subst hg2
        subst hsm2
        simp only [BlueNoiseIterator.attempts, hsplit]
        obtain ⟨ihp, iha, ihe⟩ := ih ({ s with bggrid := s.bggrid, samples := s.samples, rng_ctr := s.rng_ctr + 1 }) (iterInv_ctr_idx hInv (s.rng_ctr + 1) s.active_idx) cur_id hcur1 hcur2
        refine ⟨ihp, fun p s2 hacc => ?_, fun s2 hexh => ?_⟩
        · obtain ⟨a1, a2, a3, a4, a5, a6, a7, a8⟩ := iha p s2 hacc
          exact ⟨a1, a2, a3, a4, a5, a6, a7, a8⟩
        · rw [ihe s2 hexh]
          dsimp only
          congr 1
          omega
      | errDist =>
        obtain ⟨hg2, hsm2⟩ := insert_not_ok_unchanged hsplit
          (fun i hcon => InsertRes.noConfusion hcon)
        subst hg2
        subst hsm2
        simp only [BlueNoiseIterator.attempts, hsplit]
        obtain ⟨ihp, iha, ihe⟩ := ih ({ s with bggrid := s.bggrid, samples := s.samples, rng_ctr := s.rng_ctr + 1 }) (iterInv_ctr_idx hInv (s.rng_ctr + 1) s.active_idx) cur_id hcur1 hcur2
        refine ⟨ihp, fun p s2 hacc => ?_, fun s2 hexh => ?_⟩
        · obtain ⟨a1, a2, a3, a4, a5, a6, a7, a8⟩ := iha p s2 hacc
          exact ⟨a1, a2, a3, a4, a5, a6, a7, a8⟩
        · rw [ihe s2 hexh]
          dsimp only
          congr 1
          omega

theorem swapIfDone_fields (s : BlueNoiseIterator α) :
    (BlueNoiseIterator.swapIfDone s).samples = s.samples ∧
      (BlueNoiseIterator.swapIfDone s).bggrid = s.bggrid ∧
      (BlueNoiseIterator.swapIfDone s).dimensions = s.dimensions ∧
      (BlueNoiseIterator.swapIfDone s).min_distance = s.min_distance ∧
      (BlueNoiseIterator.swapIfDone s).k_abort = s.k_abort := by
  unfold BlueNoiseIterator.swapIfDone
  split
  · exact ⟨rfl, rfl, rfl, rfl, rfl⟩
  · exact ⟨rfl, rfl, rfl, rfl, rfl⟩

theorem iterInv_swapIfDone {s : BlueNoiseIterator α} (h : IterInv s) :
    IterInv (BlueNoiseIterator.swapIfDone s) := by
  unfold BlueNoiseIterator.swapIfDone
  split
  · refine ⟨h.grid_inv, h.grid_dims, h.grid_mdsq, h.dims_ne, h.dims_pos,
      h.md_pos, ?_, ?_, ?_, h.parent, h.tape_init_len, h.tape_init_dom,
      h.tape_radius, h.tape_angles, h.pyth⟩
    · exact h.ids_next
    · intro i hi
      cases hi
    · intro hnil
      exact ⟨(h.empty_start hnil).2, rfl⟩
  · exact h

theorem swap_idx_lt {s : BlueNoiseIterator α}
    (h : ¬ (BlueNoiseIterator.swapIfDone s).active.isEmpty = true) :
    (BlueNoiseIterator.swapIfDone s).active_idx <
      (BlueNoiseIterator.swapIfDone s).active.length := by
  unfold BlueNoiseIterator.swapIfDone at h ⊢
  by_cases hc : s.active.length ≤ s.active_idx
  · simp only [if_pos hc] at h ⊢
    have : s.next_active ≠ [] := by
      intro hcon
      exact h (by rw [hcon]; rfl)
    have := List.length_pos.mpr this
    omega
  · simp only [if_neg hc] at h ⊢
    omega

/-- Master lemma about one pull: under the invariant a pull never panics, the
invariant is preserved, an emitted sample is exactly the one appended to the
store (consuming one empty grid cell), and the end of the sequence leaves the
store and grid unchanged. The scalar configuration fields never change. -/
theorem next_preserves :
    ∀ (n : ℕ) (s : BlueNoiseIterator α),
      2 * s.next_active.length + (s.active.length - s.active_idx) ≤ n →
      IterInv s →
      (BlueNoiseIterator.next s ≠ Step.panicked) ∧
      IterInv (stepState (BlueNoiseIterator.next s) s) ∧
      (∀ p s2, BlueNoiseIterator.next s = Step.emit p s2 →
        s2.samples = s.samples ++ [p] ∧
        s2.bggrid.emptyCells < s.bggrid.emptyCells ∧
        s2.dimensions = s.dimensions ∧ s2.min_distance = s.min_distance ∧
        s2.k_abort = s.k_abort) ∧
      (∀ s2, BlueNoiseIterator.next s = Step.ended s2 →
        s2.samples = s.samples ∧ s2.bggrid = s.bggrid ∧
        s2.dimensions = s.dimensions ∧ s2.min_distance = s.min_distance ∧
        s2.k_abort = s.k_abort) := by
  intro n
  induction n using Nat.strong_induction_on with
  | _ n ih =>
    intro s hn hInv
    rw [BlueNoiseIterator.next]
    by_cases hsampE : s.samples.isEmpty
    · -- seed branch
      rw [if_pos hsampE]
      have hsampnil : s.samples = [] := by
        rwa [List.isEmpty_iff] at hsampE
      have hno : ¬ (s.dimensions.any fun d => decide (d ≤ 0)) = true := by
        rw [List.any_eq_true]
        rintro ⟨d, hd, hdt⟩
        have := hInv.dims_pos d hd
        simp only [decide_eq_true_eq] at hdt
        linarith
      rw [if_neg hno]
      have hz : ∀ i, s.bggrid.data.getD i 0 = 0 :=
        gridInv_empty_all_zero (hsampnil ▸ hInv.grid_inv)
      have hdomg : ∀ p ∈ s.rng_initial.zip s.bggrid.dimensions,
          0 ≤ p.1 ∧ p.1 < p.2 := by
        rw [hInv.grid_dims]
        exact hInv.tape_init_dom
      have hne' : s.rng_initial ≠ [] := by
        intro hcon
        have hl := hInv.tape_init_len
        rw [hcon] at hl
        exact hInv.dims_ne (List.length_eq_zero.mp hl.symm)
      have hleng : s.rng_initial.length = s.bggrid.dimensions.length := by
        rw [hInv.grid_dims]
        exact hInv.tape_init_len
      have hins := insert_of_clean hdomg hne' hz s.samples
      have hgi1 := insert_preserves_gridInv hInv.grid_inv hleng hins
      have hhome_lt := home_idx_lt hInv.grid_inv.cs_pos
        hInv.grid_inv.count_eq hInv.grid_inv.mults_eq hInv.grid_inv.data_len
        hleng hdomg hne'
      rw [hins]
      refine ⟨fun hcon => Step.noConfusion hcon, ?_, ?_, ?_⟩
      · dsimp only [stepState]
        refine ⟨hgi1, hInv.grid_dims, hInv.grid_mdsq, hInv.dims_ne,
          hInv.dims_pos, hInv.md_pos, ?_, ?_, ?_, ?_, hInv.tape_init_len,
          hInv.tape_init_dom, hInv.tape_radius, hInv.tape_angles, hInv.pyth⟩
        · intro i hi
          rw [(hInv.empty_start hsampnil).1] at hi
          simp only [List.nil_append, List.mem_singleton] at hi
          subst hi
          rw [hsampnil]
          simp
        · intro i hi
          have := (hInv.empty_start hsampnil).2
          rw [this] at hi
          cases hi
        · intro hcon
          exact absurd hcon (by simp)
        · intro i h1i hilen
          rw [hsampnil] at hilen
          simp only [List.nil_append, List.length_singleton] at hilen
          omega
      · intro p s2 hemit
        cases hemit
        refine ⟨rfl, ?_, rfl, rfl, rfl⟩
        rw [BackgroundGrid.emptyCells, BackgroundGrid.emptyCells]
        dsimp only
        exact count_zero_set_lt _ _ _ hhome_lt
          (hz _) (by omega)
      · intro s2 hcon
        cases hcon
    · -- running branch
      rw [if_neg hsampE]
      have hInvSW := iterInv_swapIfDone hInv
      obtain ⟨hsw1, hsw2, hsw3, hsw4, hsw5⟩ := swapIfDone_fields s
      by_cases hact : (BlueNoiseIterator.swapIfDone s).active.isEmpty
      · rw [if_pos hact]
        refine ⟨fun hcon => Step.noConfusion hcon, ?_, ?_, ?_⟩
        · dsimp only [stepState]
          exact hInvSW
        · intro p s2 hcon
          cases hcon
        · intro s2 hend
          cases hend
          exact ⟨hsw1, hsw2, hsw3, hsw4, hsw5⟩
      · rw [if_neg hact]
        have hidx := swap_idx_lt hact
        have hcur_mem : (BlueNoiseIterator.swapIfDone s).active.getD
            (BlueNoiseIterator.swapIfDone s).active_idx 0 ∈
            (BlueNoiseIterator.swapIfDone s).active :=
          getD_mem _ _ _ hidx
        obtain ⟨hcur1, hcur2⟩ := hInvSW.ids_act _ hcur_mem
        obtain ⟨hap, haa, hae⟩ := attempts_spec
          (BlueNoiseIterator.swapIfDone s).k_abort
          (BlueNoiseIterator.swapIfDone s) hInvSW _ hcur1 hcur2
        split
        · -- accepted
          rename_i p s2 hatt
          obtain ⟨a1, a2, a3, a4, a5, a6, a7, a8⟩ := haa p s2 hatt
          refine ⟨fun hcon => Step.noConfusion hcon, ?_, ?_, ?_⟩
          · dsimp only [stepState]
            exact a1
          · intro p' s2' hemit
            cases hemit
            rw [hsw1] at a2
            rw [hsw2] at a3
            rw [hsw3] at a6
            rw [hsw4] at a7
            rw [hsw5] at a8
            exact ⟨a2, a3, a6, a7, a8⟩
          · intro s2' hcon
            cases hcon
        · -- panicked: impossible
          rename_i hatt
          exact absurd hatt hap
        · -- exhausted: recurse
          rename_i s2 hatt
          have hs2 := hae s2 hatt
          have hmeas : 2 * ({ s2 with active_idx := s2.active_idx + 1 } :
              BlueNoiseIterator α).next_active.length +
              (({ s2 with active_idx := s2.active_idx + 1 } :
                BlueNoiseIterator α).active.length -
                ({ s2 with active_idx := s2.active_idx + 1 } :
                  BlueNoiseIterator α).active_idx) <
              2 * s.next_active.length +
                (s.active.length - s.active_idx) := by
            obtain ⟨ea, ei, en⟩ := attempts_exhausted_fields _ _ _ _ _ hatt
            dsimp only
            rw [ea, ei, en]
            exact swap_measure s (by
              intro hcon
              exact hact (by rw [hcon]; rfl))
          have hInv2 : IterInv ({ s2 with active_idx := s2.active_idx + 1 }) := by
            rw [hs2]
            exact iterInv_ctr_idx hInvSW _ _
          obtain ⟨r1, r2, r3, r4⟩ := ih
            (2 * ({ s2 with active_idx := s2.active_idx + 1 } :
              BlueNoiseIterator α).next_active.length +
              (({ s2 with active_idx := s2.active_idx + 1 } :
                BlueNoiseIterator α).active.length -
                ({ s2 with active_idx := s2.active_idx + 1 } :
                  BlueNoiseIterator α).active_idx))
            (by omega)
            ({ s2 with active_idx := s2.active_idx + 1 }) (le_refl _) hInv2
          have hsam : ({ s2 with active_idx := s2.active_idx + 1 } :
              BlueNoiseIterator α).samples = s.samples := by
            rw [hs2]
            dsimp only
            exact hsw1
          have hgr : ({ s2 with active_idx := s2.active_idx + 1 } :
              BlueNoiseIterator α).bggrid = s.bggrid := by
            rw [hs2]
            dsimp only
            exact hsw2
          have hdm : ({ s2 with active_idx := s2.active_idx + 1 } :
              BlueNoiseIterator α).dimensions = s.dimensions := by
            rw [hs2]
            dsimp only
            exact hsw3
          have hmdm : ({ s2 with active_idx := s2.active_idx + 1 } :
              BlueNoiseIterator α).min_distance = s.min_distance := by
            rw [hs2]
            dsimp only
            exact hsw4
          have hkb : ({ s2 with active_idx := s2.active_idx + 1 } :
              BlueNoiseIterator α).k_abort = s.k_abort := by
            rw [hs2]
            dsimp only
            exact hsw5
          refine ⟨r1, ?_, ?_, ?_⟩
          · -- invariant of the step state: the recursive result's state
            -- coincides for every outcome
            cases hres : BlueNoiseIterator.next
                ({ s2 with active_idx := s2.active_idx + 1 }) with
            | emit p0 s0 =>
              rw [hres] at r2
              dsimp only [stepState] at r2 ⊢
              exact r2
            | ended s0 =>
              rw [hres] at r2
              dsimp only [stepState] at r2 ⊢
              exact r2
            | panicked =>
              rw [hres] at r1
              exact absurd rfl r1
          · intro p s2' hemit
            obtain ⟨b1, b2, b3, b4, b5⟩ := r3 p s2' hemit
            rw [hsam] at b1
            rw [hgr] at b2
            rw [hdm] at b3
            rw [hmdm] at b4
            rw [hkb] at b5
            exact ⟨b1, b2, b3, b4, b5⟩
          · intro s2' hend
            obtain ⟨b1, b2, b3, b4, b5⟩ := r4 s2' hend
            rw [hsam] at b1
            rw [hgr] at b2
            rw [hdm] at b3
            rw [hmdm] at b4
            rw [hkb] at b5
            exact ⟨b1, b2, b3, b4, b5⟩

theorem backgroundGrid_new_elim {dims : List α} {md cs : α}
    {g : BackgroundGrid α} (h : BackgroundGrid.new dims md cs = some g) :
    g.dimensions = dims ∧ g.min_dst_sqr = md * md ∧ g.cell_size = cs ∧
      0 < md := by
  unfold BackgroundGrid.new at h
  split at h
  · rename_i hmd
    simp only [Option.some.injEq] at h
    subst h
    exact ⟨rfl, rfl, rfl, hmd⟩
  · cases h

theorem blueNoiseIterator_new_elim {dims : List α} {md cs : α} {k : ℕ}
    {init : List α} {fr : ℕ → α} {fa : ℕ → List α} {sf cf : α → α}
    {s0 : BlueNoiseIterator α}
    (h : BlueNoiseIterator.new dims md cs k init fr fa sf cf = some s0) :
    ∃ g, BackgroundGrid.new dims md cs = some g ∧
      s0 = { dimensions := dims, min_distance := md, k_abort := k, samples := [], bggrid := g, active := [], active_idx := 0, next_active := [], rng_initial := init, rng_radius := fr, rng_angles := fa, rng_ctr := 0, sinf := sf, cosf := cf } := by
  unfold BlueNoiseIterator.new at h
  cases hg : BackgroundGrid.new dims md cs with
  | none =>
    rw [hg] at h
    cases h
  | some g =>
    rw [hg] at h
    exact ⟨g, rfl, (Option.some.inj h).symm⟩

/-- A successfully constructed iterator on valid inputs (with a valid random
tape model) satisfies the iteration invariant. -/
theorem iterInv_new {dims : List α} {md cs : α} {k : ℕ} {init : List α}
    {fr : ℕ → α} {fa : ℕ → List α} {sf cf : α → α}
    {s0 : BlueNoiseIterator α}
    (h : BlueNoiseIterator.new dims md cs k init fr fa sf cf = some s0)
    (hdne : dims ≠ []) (hdpos : ∀ d ∈ dims, 0 < d)
    (hcs : 0 < cs) (hspec : (dims.length : α) * (cs * cs) ≤ md * md)
    (hinitlen : init.length = dims.length)
    (hinitdom : ∀ p ∈ init.zip dims, 0 ≤ p.1 ∧ p.1 < p.2)
    (hradius : ∀ j, md ≤ fr j ∧ fr j < 2 * md)
    (hangles : ∀ j, (fa j).length = dims.length - 1)
    (hpyth : ∀ x, sf x * sf x + cf x * cf x = 1) :
    IterInv s0 := by
  obtain ⟨g, hg, hs0⟩ := blueNoiseIterator_new_elim h
  obtain ⟨hgd, hgm, hgc, hmd⟩ := backgroundGrid_new_elim hg
  subst hs0
  have hgi : GridInv g [] := gridInv_new hg hcs hspec hdpos
  refine ⟨hgi, hgd, hgm, hdne, hdpos, hmd, ?_, ?_, ?_, ?_, hinitlen,
    hinitdom, hradius, hangles, hpyth⟩
  · intro i hi
    cases hi
  · intro i hi
    cases hi
  · intro _
    exact ⟨rfl, rfl⟩
  · intro i h1 h2
    simp only [List.length_nil] at h2
    omega

theorem iterN_succ_front (s : BlueNoiseIterator α) :
    ∀ n, iterN s (n + 1) =
      iterN (stepState (BlueNoiseIterator.next s) s) n := by
  intro n
  induction n with
  | zero => rfl
  | succ n ihn =>
    show stepState (BlueNoiseIterator.next (iterN s (n + 1)))
        (iterN s (n + 1)) = _
    rw [ihn]
    rfl

theorem pullKindN_succ_front (s : BlueNoiseIterator α) (n : ℕ) :
    pullKindN s (n + 1) =
      pullKindN (stepState (BlueNoiseIterator.next s) s) n := by
  unfold pullKindN
  rw [iterN_succ_front]

/-- The invariant and the scalar configuration carry over any number of
pulls. -/
theorem iterN_inv {s : BlueNoiseIterator α} (hInv : IterInv s) :
    ∀ n, IterInv (iterN s n) ∧
      (iterN s n).min_distance = s.min_distance ∧
      (iterN s n).dimensions = s.dimensions ∧
      (iterN s n).k_abort = s.k_abort := by
  intro n
  induction n with
  | zero => exact ⟨hInv, rfl, rfl, rfl⟩
  | succ n ihn =>
    obtain ⟨i1, i2, i3, i4⟩ := ihn
    obtain ⟨h1, h2, h3, h4⟩ := next_preserves
      (2 * (iterN s n).next_active.length +
        ((iterN s n).active.length - (iterN s n).active_idx))
      (iterN s n) (le_refl _) i1
    have hstep : iterN s (n + 1) =
        stepState (BlueNoiseIterator.next (iterN s n)) (iterN s n) := rfl
    refine ⟨h2, ?_⟩
    rw [hstep]
    cases hres : BlueNoiseIterator.next (iterN s n) with
    | emit p s2 =>
      obtain ⟨_, _, b3, b4, b5⟩ := h3 p s2 hres
      dsimp only [stepState]
      exact ⟨b4.trans i2, b3.trans i3, b5.trans i4⟩
    | ended s2 =>
      obtain ⟨_, _, b3, b4, b5⟩ := h4 s2 hres
      dsimp only [stepState]
      exact ⟨b4.trans i2, b3.trans i3, b5.trans i4⟩
    | panicked =>
      dsimp only [stepState]
      exact ⟨i2, i3, i4⟩

/-- Counting argument: every produced sample permanently fills a previously
empty grid cell, so within `emptyCells + 1` pulls the iterator must signal the
end of the sequence. -/
theorem terminates_aux :
    ∀ (E : ℕ) (s : BlueNoiseIterator α), IterInv s →
      s.bggrid.emptyCells ≤ E →
      ∃ n, n ≤ E ∧ pullKindN s n = PullKind.ended := by
  intro E
  induction E with
  | zero =>
    intro s hInv hE
    obtain ⟨h1, h2, h3, h4⟩ := next_preserves
      (2 * s.next_active.length + (s.active.length - s.active_idx)) s
      (le_refl _) hInv
    cases hres : BlueNoiseIterator.next s with
    | emit p s2 =>
      obtain ⟨_, hlt, _⟩ := h3 p s2 hres
      omega
    | ended s2 =>
      refine ⟨0, le_refl 0, ?_⟩
      unfold pullKindN iterN
      rw [hres]
      rfl
    | panicked => exact absurd hres h1
  | succ E ihE =>
    intro s hInv hE
    obtain ⟨h1, h2, h3, h4⟩ := next_preserves
      (2 * s.next_active.length + (s.active.length - s.active_idx)) s
      (le_refl _) hInv
    cases hres : BlueNoiseIterator.next s with
    | emit p s2 =>
      obtain ⟨_, hlt, _⟩ := h3 p s2 hres
      have hInv2 : IterInv s2 := by
        rw [hres] at h2
        exact h2
      obtain ⟨n, hnE, hkind⟩ := ihE s2 hInv2 (by omega)
      refine ⟨n + 1, by omega, ?_⟩
      rw [pullKindN_succ_front, hres]
      exact hkind
    | ended s2 =>
      refine ⟨0, by omega, ?_⟩
      unfold pullKindN iterN
      rw [hres]
      rfl
    | panicked => exact absurd hres h1

/-- The very first pull emits the seed sample drawn from the tape. -/
theorem next_seed {s : BlueNoiseIterator α} (hInv : IterInv s)
    (hnil : s.samples = []) :
    ∃ s2, BlueNoiseIterator.next s = Step.emit s.rng_initial s2 := by
  rw [BlueNoiseIterator.next]
  rw [if_pos (by rw [hnil]; rfl)]
  have hno : ¬ (s.dimensions.any fun d => decide (d ≤ 0)) = true := by
    rw [List.any_eq_true]
    rintro ⟨d, hd, hdt⟩
    have := hInv.dims_pos d hd
    simp only [decide_eq_true_eq] at hdt
    linarith
  rw [if_neg hno]
  have hz : ∀ i, s.bggrid.data.getD i 0 = 0 :=
    gridInv_empty_all_zero (hnil ▸ hInv.grid_inv)
  have hdomg : ∀ p ∈ s.rng_initial.zip s.bggrid.dimensions,
      0 ≤ p.1 ∧ p.1 < p.2 := by
    rw [hInv.grid_dims]
    exact hInv.tape_init_dom
  have hne' : s.rng_initial ≠ [] := by
    intro hcon
    have hl := hInv.tape_init_len
    rw [hcon] at hl
    exact hInv.dims_ne (List.length_eq_zero.mp hl.symm)
  rw [insert_of_clean hdomg hne' hz s.samples]
  exact ⟨_, rfl⟩

/-- With a zero retry budget no pull after the seed can ever emit: every
retry loop exhausts immediately. -/
theorem k0_no_emit :
    ∀ (n : ℕ) (s : BlueNoiseIterator α),
      2 * s.next_active.length + (s.active.length - s.active_idx) ≤ n →
      IterInv s → s.k_abort = 0 → ¬ s.samples.isEmpty = true →
      ∀ p s2, BlueNoiseIterator.next s ≠ Step.emit p s2 := by
  intro n
  induction n using Nat.strong_induction_on with
  | _ n ih =>
    intro s hn hInv hk hs p s2
    rw [BlueNoiseIterator.next]
    rw [if_neg hs]
    have hInvSW := iterInv_swapIfDone hInv
    obtain ⟨hsw1, hsw2, hsw3, hsw4, hsw5⟩ := swapIfDone_fields s
    by_cases hact : (BlueNoiseIterator.swapIfDone s).active.isEmpty
    · rw [if_pos hact]
      exact fun hcon => Step.noConfusion hcon
    · rw [if_neg hact]
      have hidx := swap_idx_lt hact
      obtain ⟨hcur1, hcur2⟩ := hInvSW.ids_act _ (getD_mem _ _ _ hidx)
      obtain ⟨hap, haa, hae⟩ := attempts_spec
        (BlueNoiseIterator.swapIfDone s).k_abort
        (BlueNoiseIterator.swapIfDone s) hInvSW _ hcur1 hcur2
      split
      · rename_i p' s2' hatt
        rw [hsw5, hk] at hatt
        exact absurd hatt (by
          intro hcon
          exact AttemptRes.noConfusion hcon)
      · rename_i hatt
        exact fun hcon => Step.noConfusion hcon
      · rename_i s2' hatt
        have hs2 := hae s2' hatt
        have hmeas : 2 * ({ s2' with active_idx := s2'.active_idx + 1 } :
            BlueNoiseIterator α).next_active.length +
            (({ s2' with active_idx := s2'.active_idx + 1 } :
              BlueNoiseIterator α).active.length -
              ({ s2' with active_idx := s2'.active_idx + 1 } :
                BlueNoiseIterator α).active_idx) <
            2 * s.next_active.length + (s.active.length - s.active_idx) := by
          obtain ⟨ea, ei, en⟩ := attempts_exhausted_fields _ _ _ _ _ hatt
          dsimp only
          rw [ea, ei, en]
          exact swap_measure s (by
            intro hcon
            exact hact (by rw [hcon]; rfl))
        have hInv2 : IterInv ({ s2' with active_idx := s2'.active_idx + 1 }) := by
          rw [hs2]
          exact iterInv_ctr_idx hInvSW _ _
        have hk2 : ({ s2' with active_idx := s2'.active_idx + 1 } :
            BlueNoiseIterator α).k_abort = 0 := by
          rw [hs2]
          dsimp only
          rw [hsw5]
          exact hk
        have hs2' : ¬ ({ s2' with active_idx := s2'.active_idx + 1 } :
            BlueNoiseIterator α).samples.isEmpty = true := by
          rw [hs2]
          dsimp only
          rw [hsw1]
          exact hs
        exact ih _ (by omega) _ (le_refl _) hInv2 hk2 hs2' p s2

theorem insert_oob_iff {g : BackgroundGrid α} {pos : List α}
    {samples : List (List α)} :
    g.insert pos samples = some (InsertRes.errOob, g, samples) ↔
      (pos.zip g.dimensions).any
        (fun p => decide (p.1 < 0) || decide (p.2 ≤ p.1)) = true := by
  unfold BackgroundGrid.insert
  split
  · rename_i hc
    simp only [hc]
  · rename_i hc
    constructor
    · intro h
      split at h
      · cases h
      · split at h
        · simp only [Option.some.injEq, Prod.mk.injEq] at h
          cases h.1
        · simp only [Option.some.injEq, Prod.mk.injEq] at h
          cases h.1
    · intro h
      exact absurd h hc

theorem any_zip_index :
    ∀ (x y : List α), x.length = y.length →
      (((x.zip y).any (fun p => decide (p.1 < 0) || decide (p.2 ≤ p.1)) =
        true) ↔
      ∃ i, i < x.length ∧ (x.getD i 0 < 0 ∨ y.getD i 0 ≤ x.getD i 0)) := by
  intro x
  induction x with
  | nil =>
    intro y h
    simp
  | cons a xs ih =>
    intro y h
    cases y with
    | nil => simp at h
    | cons b ys =>
      simp only [List.zip_cons_cons, List.any_cons, Bool.or_eq_true,
        decide_eq_true_eq]
      rw [ih ys (by simpa using h)]
      constructor
      · rintro ((hc | hc) | ⟨i, hi, hc⟩)
        · exact ⟨0, by simp, Or.inl (by simpa using hc)⟩
        · exact ⟨0, by simp, Or.inr (by simpa using hc)⟩
        · exact ⟨i + 1, by simpa using hi, by simpa using hc⟩
      · rintro ⟨i, hi, hc⟩
        cases i with
        | zero =>
          simp only [List.getD_cons_zero] at hc
          rcases hc with hc | hc
          · exact Or.inl (Or.inl hc)
          · exact Or.inl (Or.inr hc)
        | succ i =>
          right
          exact ⟨i, by simpa using hi, by simpa using hc⟩

theorem step_kind_panicked {x : Step α}
    (h : Step.kind x = PullKind.panicked) : x = Step.panicked := by
  cases x with
  | emit p s => cases h
  | ended s => cases h
  | panicked => rfl

/-- Reachability of a grid/store pair by a sequence of `insert` calls with
full-dimension candidates, starting from a freshly constructed grid — the
setting of claim C9. -/
inductive Reachable (dims : List α) (md cs : α) :
    BackgroundGrid α → List (List α) → Prop where
  | base : ∀ g0, BackgroundGrid.new dims md cs = some g0 →
      Reachable dims md cs g0 []
  | step : ∀ g s pos r g' s', Reachable dims md cs g s →
      pos.length = dims.length → g.insert pos s = some (r, g', s') →
      Reachable dims md cs g' s'

/-- Every reachable grid/store pair satisfies the invariant (and keeps the
constructed extents). -/
theorem reachable_gridInv {dims : List α} {md cs : α}
    {g : BackgroundGrid α} {s : List (List α)}
    (hreach : Reachable dims md cs g s) (hcs : 0 < cs)
    (hspec : (dims.length : α) * (cs * cs) ≤ md * md)
    (hdims : ∀ d ∈ dims, 0 < d) :
    GridInv g s ∧ g.dimensions = dims := by
  induction hreach with
  | base g0 h0 =>
    exact ⟨gridInv_new h0 hcs hspec hdims,
      (backgroundGrid_new_elim h0).1⟩
  | step g s pos r g' s' hr hlen hins ihr =>
    obtain ⟨hgi, hgd⟩ := ihr
    refine ⟨insert_preserves_gridInv hgi (by rw [hgd]; exact hlen) hins, ?_⟩
    rcases r with id | _ | _
    · rw [(insert_ok_shape hins).2.2.2.1]
      exact hgd
    · rw [(insert_not_ok_unchanged hins
        (fun i hcon => InsertRes.noConfusion hcon)).1]
      exact hgd
    · rw [(insert_not_ok_unchanged hins
        (fun i hcon => InsertRes.noConfusion hcon)).1]
      exact hgd

/-- Claim C1 (evidence of a code bug). On a freshly constructed 4-dimensional
grid over extents `[1,1,1,1]` with `min_distance = 1/2` (so the source's cell
size is `min_distance / sqrt 4 = 1/4` exactly), the in-domain candidates
`(0.24, 0, 0, 0)` and `(0.6, 0, 0, 0)` are BOTH accepted by
`BackgroundGrid::insert`, although their squared Euclidean distance is
`0.1296 < min_distance² = 0.25`. The scan window half-width computed by the
source, `cell_offs = ceil(min_dst_sqr / cell_size) = ceil(0.25/0.25) = 1`
cell, cannot reach the first sample's cell (axis-0 cells 0 and 2). This
refutes the claim that `insert` never accepts a candidate strictly closer
than `min_distance` to a stored sample; the spec's no-collision postcondition
fails on the code whenever `min_distance` is small. -/
theorem C1_insert_accepts_too_close_pair :
    ((BackgroundGrid.new [1, 1, 1, 1] ((1 : ℚ)/2) (1/4)).bind (fun g =>
      (g.insert [6/25, 0, 0, 0] []).bind (fun r1 =>
        match r1 with
        | (InsertRes.ok 1, g1, s1) =>
          (g1.insert [3/5, 0, 0, 0] s1).map (fun r2 => r2.1)
        | _ => none))) = some (InsertRes.ok 2) ∧
      dst_sqr ([6/25, 0, 0, 0] : List ℚ) [3/5, 0, 0, 0] <
        (1/2 : ℚ) * (1/2) := by
  constructor
  · with_unfolding_all decide
  · with_unfolding_all decide

/-- Claim C2 (evidence of a code bug). The window half-width computed by
`BackgroundGrid::insert` is `ceil(min_dst_sqr / cell_size)`, dividing the
SQUARED minimum distance by the cell size, not `ceil(min_distance /
cell_size)` as the spec states. First conjunct: over extents `[2,2,2,2]` with
`min_distance = 4` (cell size `2 = 4 / sqrt 4`), the code's half-width is
`ceil(16/2) = 8` while the spec's formula gives `ceil(4/2) = 2`. Remaining
conjuncts: for `min_distance = 1/2` over `[1,1,1,1]` (cell size `1/4`) the
code's half-width is 1, so the scan window of the candidate `(0.6,0,0,0)`
starts at axis-0 cell 1 even though the cell of the conflicting stored sample
`(0.24,0,0,0)` (at squared distance `< min_distance²`) is axis-0 cell 0: the
window misses a sample within the minimum distance, refuting the claimed
no-false-negative guarantee. -/
theorem C2_cell_offs_divides_squared_distance :
    (BackgroundGrid.new [2, 2, 2, 2] (4 : ℚ) 2).map BackgroundGrid.cell_offs
      = some 8 ∧
    (⌈(4 : ℚ) / 2⌉).toNat = 2 ∧ (8 : ℕ) ≠ 2 ∧
    (BackgroundGrid.new [1, 1, 1, 1] ((1 : ℚ)/2) (1/4)).map (fun g =>
      (g.cell_offs, g.minCell (g.cellOf [3/5, 0, 0, 0]),
        g.cellOf [6/25, 0, 0, 0])) =
      some (1, [1, 0, 0, 0], [0, 0, 0, 0]) ∧
    dst_sqr ([6/25, 0, 0, 0] : List ℚ) [3/5, 0, 0, 0] <
      (1/2 : ℚ) * (1/2) := by
  refine ⟨?_, ?_, by decide, ?_, ?_⟩
  · with_unfolding_all decide
  · with_unfolding_all decide
  · with_unfolding_all decide
  · with_unfolding_all decide

/-- Claim C3 counterexample. Construction does NOT fail for degenerate or
empty domain extents: `BackgroundGrid::new` (and hence
`BlueNoiseIterator::new`, `blue_noise`, `blue_noise_iter`) only asserts
`min_distance > 0` and happily builds a grid for the extent list `[-1]` (the
cell size parameter `1 = min_distance / sqrt 1` is the exact value the source
computes) and for the empty extent list (for which every constructed field is
independent of the cell size, the source's `min_distance / sqrt 0 = ∞`
notwithstanding). This refutes the claim that construction fails fatally
whenever the extents are empty or non-positive. -/
theorem C3_construction_accepts_degenerate_extents :
    (BackgroundGrid.new [(-1 : ℚ)] 1 1).isSome = true ∧
    (BackgroundGrid.new ([] : List ℚ) 1 1).isSome = true ∧
    (BlueNoiseIterator.new [(-1 : ℚ)] 1 1 30 [0] (fun _ => 1)
      (fun _ => []) (fun _ => 0) (fun _ => 1)).isSome = true := by
  refine ⟨?_, ?_, ?_⟩ <;> with_unfolding_all decide

/-- Claim C3 as amended: construction fails fatally exactly when
`min_distance ≤ 0` (degenerate extents are not checked at construction and
panic only on the first pull); and for `min_distance > 0`, nonempty positive
extents and a well-formed random tape, generation never fails on any
subsequent pull. -/
theorem C3_construction_failure_iff :
    (∀ (dims : List α) (md cs : α),
      (BackgroundGrid.new dims md cs).isSome = true ↔ 0 < md) ∧
    (∀ (dims : List α) (md cs : α) (k : ℕ) (init : List α) (fr : ℕ → α)
      (fa : ℕ → List α) (sf cf : α → α) (s0 : BlueNoiseIterator α),
      BlueNoiseIterator.new dims md cs k init fr fa sf cf = some s0 →
      dims ≠ [] → (∀ d ∈ dims, 0 < d) → 0 < cs →
      (dims.length : α) * (cs * cs) ≤ md * md →
      init.length = dims.length →
      (∀ p ∈ init.zip dims, 0 ≤ p.1 ∧ p.1 < p.2) →
      (∀ j, md ≤ fr j ∧ fr j < 2 * md) →
      (∀ j, (fa j).length = dims.length - 1) →
      (∀ x, sf x * sf x + cf x * cf x = 1) →
      ∀ n, pullKindN s0 n ≠ PullKind.panicked) := by
  constructor
  · intro dims md cs
    unfold BackgroundGrid.new
    split
    · rename_i h
      simp only [Option.isSome_some]
      exact iff_of_true trivial h
    · rename_i h
      simp only [Option.isSome_none]
      exact iff_of_false (by simp) h
  · intro dims md cs k init fr fa sf cf s0 hnew hdne hdpos hcs hspec
      hinitlen hinitdom hrad hang hpyth n hcon
    have hInv := iterInv_new hnew hdne hdpos hcs hspec hinitlen hinitdom
      hrad hang hpyth
    have hIn := (iterN_inv hInv n).1
    have hpan := step_kind_panicked hcon
    exact (next_preserves
      (2 * (iterN s0 n).next_active.length +
        ((iterN s0 n).active.length - (iterN s0 n).active_idx))
      (iterN s0 n) (le_refl _) hIn).1 hpan

/-- Concrete 1-dimensional iterator over `ℚ` (extent 1, minimum distance 1,
exact cell size `1 = 1 / sqrt 1`, zero retry budget, seed draw `1/2`, and a
tape/sine model satisfying all modelling constraints), used to instantiate
theorems with hypotheses at an explicit input. -/
def exGrid1 : BackgroundGrid ℚ :=
  { data := [0], dimensions := [1], min_dst_sqr := 1, cell_size := 1,
    cell_count := [1], cell_multiplicators := [1] }

def exIter0 : BlueNoiseIterator ℚ :=
  { dimensions := [1], min_distance := 1, k_abort := 0, samples := [],
    bggrid := exGrid1, active := [], active_idx := 0, next_active := [],
    rng_initial := [1/2], rng_radius := fun _ => 3/2,
    rng_angles := fun _ => [], rng_ctr := 0, sinf := fun _ => 0,
    cosf := fun _ => 1 }

theorem exIter0_new :
    BlueNoiseIterator.new [1] (1 : ℚ) 1 0 [1/2] (fun _ => 3/2)
      (fun _ => []) (fun _ => 0) (fun _ => 1) = some exIter0 := by
  with_unfolding_all rfl

/-- Witness for the amended claim C3, at the explicit iterator `exIter0`. -/
theorem C3_construction_failure_iff_witness :
    (((BackgroundGrid.new [(1 : ℚ)] 1 1).isSome = true ↔ 0 < (1 : ℚ)) ∧
      ([(1 : ℚ)] ≠ []) ∧ (∀ d ∈ [(1 : ℚ)], 0 < d) ∧ (0 < (1 : ℚ)) ∧
      (([(1 : ℚ)].length : ℚ) * (1 * 1) ≤ 1 * 1) ∧
      ([(1 : ℚ)/2].length = [(1 : ℚ)].length) ∧
      (∀ p ∈ [(1 : ℚ)/2].zip [(1 : ℚ)], 0 ≤ p.1 ∧ p.1 < p.2) ∧
      (∀ j : ℕ, (1 : ℚ) ≤ 3/2 ∧ (3/2 : ℚ) < 2 * 1) ∧
      (∀ x : ℚ, (0 : ℚ) * 0 + 1 * 1 = 1)) ∧
    pullKindN exIter0 0 ≠ PullKind.panicked := by
  refine ⟨⟨C3_construction_failure_iff.1 [1] 1 1, ?_, ?_, ?_, ?_, ?_, ?_,
    ?_, ?_⟩, ?_⟩
  · decide
  · with_unfolding_all decide
  · with_unfolding_all decide
  · with_unfolding_all decide
  · decide
  · with_unfolding_all decide
  · intro j
    constructor <;> norm_num
  · intro x
    norm_num
  · exact C3_construction_failure_iff.2 [1] 1 1 0 [1/2] (fun _ => 3/2)
      (fun _ => []) (fun _ => 0) (fun _ => 1) exIter0 exIter0_new
      (by decide) (by with_unfolding_all decide)
      (by with_unfolding_all decide) (by with_unfolding_all decide)
      (by with_unfolding_all decide) (by with_unfolding_all decide)
      (fun j => ⟨by norm_num, by norm_num⟩)
      (fun j => by simp)
      (fun x => by norm_num) 0

/-- Claim C5: the domain check of `BackgroundGrid::insert` rejects (as
out-of-bounds, with the state unchanged) exactly when some coordinate is `< 0`
or `≥` its axis extent; a coordinate exactly equal to its extent always
triggers the rejection, and for positive extents a zero coordinate never
does — every out-of-bounds rejection has a witnessing coordinate that is not
zero. -/
theorem C5_out_of_bounds_iff {g : BackgroundGrid α} {pos : List α}
    (samples : List (List α))
    (hlen : pos.length = g.dimensions.length)
    (hdims : ∀ d ∈ g.dimensions, 0 < d) :
    (g.insert pos samples = some (InsertRes.errOob, g, samples) ↔
      ∃ i, i < pos.length ∧
        (pos.getD i 0 < 0 ∨ g.dimensions.getD i 0 ≤ pos.getD i 0)) ∧
    ((∃ i, i < pos.length ∧ pos.getD i 0 = g.dimensions.getD i 0) →
      g.insert pos samples = some (InsertRes.errOob, g, samples)) ∧
    (g.insert pos samples = some (InsertRes.errOob, g, samples) →
      ∃ i, i < pos.length ∧
        (pos.getD i 0 < 0 ∨ g.dimensions.getD i 0 ≤ pos.getD i 0) ∧
        pos.getD i 0 ≠ 0) := by
  have hiff := @insert_oob_iff α _ _ g pos samples
  rw [any_zip_index pos g.dimensions hlen] at hiff
  refine ⟨hiff, ?_, ?_⟩
  · rintro ⟨i, hi, he⟩
    exact hiff.mpr ⟨i, hi, Or.inr (le_of_eq he.symm)⟩
  · intro h
    obtain ⟨i, hi, hc⟩ := hiff.mp h
    refine ⟨i, hi, hc, ?_⟩
    intro h0
    rw [h0] at hc
    rcases hc with hc | hc
    · exact absurd hc (lt_irrefl 0)
    · have hd : 0 < g.dimensions.getD i 0 :=
        hdims _ (getD_mem _ _ _ (by omega))
      linarith

/-- Concrete 1-dimensional grid over `ℚ` with extent 35 and minimum distance 4
(exact cell size `4 = 4 / sqrt 1`), as in the source's `grid_corners` test. -/
def exGrid35 : BackgroundGrid ℚ :=
  { data := List.replicate 9 0, dimensions := [35], min_dst_sqr := 16,
    cell_size := 4, cell_count := [9], cell_multiplicators := [1] }

/-- Witness for claim C5: on `exGrid35` the boundary candidate `[35]` (equal
to the extent) is rejected as out of bounds with the state unchanged. -/
theorem C5_out_of_bounds_iff_witness :
    (([(35 : ℚ)].length = exGrid35.dimensions.length) ∧
      (∀ d ∈ exGrid35.dimensions, 0 < d)) ∧
    exGrid35.insert [(35 : ℚ)] [] =
      some (InsertRes.errOob, exGrid35, []) := by
  refine ⟨⟨by decide, by intro d hd; fin_cases hd; with_unfolding_all decide⟩,
    ?_⟩
  exact (C5_out_of_bounds_iff [] (by decide)
    (by intro d hd; fin_cases hd; with_unfolding_all decide)).2.1
    ⟨0, by decide, by with_unfolding_all decide⟩

/-- Claim C8: `BackgroundGrid::insert` has side effects only on success. On
`Ok` the store grows by exactly the candidate, and exactly one cell — which
held 0 — now holds the new id, every other cell unchanged (under the
grid/store invariant, for a full-dimension candidate). On either error the
grid and the store are returned exactly as they were. -/
theorem C8_insert_frame {g : BackgroundGrid α} {pos : List α}
    {samples : List (List α)} {r : InsertRes} {g' : BackgroundGrid α}
    {samples' : List (List α)} (hInv : GridInv g samples)
    (hlen : pos.length = g.dimensions.length)
    (hres : g.insert pos samples = some (r, g', samples')) :
    (∀ id, r = InsertRes.ok id →
      id = samples.length + 1 ∧ samples' = samples ++ [pos] ∧
      ∃ c, c < g.data.length ∧ g.data.getD c 0 = 0 ∧
        g'.data = g.data.set c (samples.length + 1) ∧
        g'.data.getD c 0 = samples.length + 1 ∧
        ∀ c', c' ≠ c → g'.data.getD c' 0 = g.data.getD c' 0) ∧
    ((r = InsertRes.errOob ∨ r = InsertRes.errDist) →
      g' = g ∧ samples' = samples) := by
  constructor
  · intro id hr
    subst hr
    obtain ⟨hid, hs, hdata, _, _, _, _, _, hdom, hposne, _⟩ :=
      insert_ok_shape hres
    have hempty := insert_ok_home_empty hInv hlen hres
    have hlt := home_idx_lt hInv.cs_pos hInv.count_eq hInv.mults_eq
      hInv.data_len hlen hdom hposne
    refine ⟨hid, hs, g.calc_idx (g.cellOf pos), hlt, hempty, hdata, ?_, ?_⟩
    · rw [hdata]
      exact getD_set_self _ _ _ hlt
    · intro c' hc'
      rw [hdata]
      exact getD_set_ne _ _ _ _ (Ne.symm hc')
  · intro hr
    rcases hr with hr | hr <;> subst hr <;>
      exact insert_not_ok_unchanged hres
        (fun i hcon => InsertRes.noConfusion hcon)

/-- The grid `exGrid1` after its single cell received sample id 1. -/
def exGrid1b : BackgroundGrid ℚ :=
  { data := [1], dimensions := [1], min_dst_sqr := 1, cell_size := 1,
    cell_count := [1], cell_multiplicators := [1] }

theorem exGrid1_new : BackgroundGrid.new [1] (1 : ℚ) 1 = some exGrid1 := by
  with_unfolding_all rfl

/-- Witness for claim C8 at the explicit grid `exGrid1` and the accepted
candidate `[1/2]`. -/
theorem C8_insert_frame_witness :
    (GridInv exGrid1 ([] : List (List ℚ)) ∧
      [(1 : ℚ)/2].length = exGrid1.dimensions.length) ∧
    (1 = ([] : List (List ℚ)).length + 1 ∧
      [[(1 : ℚ)/2]] = [] ++ [[(1 : ℚ)/2]] ∧
      ∃ c, c < exGrid1.data.length ∧ exGrid1.data.getD c 0 = 0 ∧
        exGrid1b.data =
          exGrid1.data.set c (([] : List (List ℚ)).length + 1) ∧
        exGrid1b.data.getD c 0 = ([] : List (List ℚ)).length + 1 ∧
        ∀ c', c' ≠ c →
          exGrid1b.data.getD c' 0 = exGrid1.data.getD c' 0) := by
  have hgi : GridInv exGrid1 ([] : List (List ℚ)) :=
    gridInv_new exGrid1_new (by norm_num) (by norm_num)
      (by intro d hd; fin_cases hd; norm_num)
  have hins : exGrid1.insert [(1 : ℚ)/2] [] =
      some (InsertRes.ok 1, exGrid1b, [[(1 : ℚ)/2]]) := by
    with_unfolding_all rfl
  exact ⟨⟨hgi, by decide⟩,
    (C8_insert_frame hgi (by decide) hins).1 1 rfl⟩

/-- Claim C9: in every grid/store state reachable by a sequence of inserts
from a freshly constructed grid, distinct stored samples occupy distinct grid
cells (a cell holds at most one sample id), and a further accepted insert
always writes into a cell currently holding 0 — `insert` never overwrites a
non-zero cell entry. -/
theorem C9_cells_unique {dims : List α} {md cs : α} {g : BackgroundGrid α}
    {s : List (List α)} (hreach : Reachable dims md cs g s) (hcs : 0 < cs)
    (hspec : (dims.length : α) * (cs * cs) ≤ md * md)
    (hdims : ∀ d ∈ dims, 0 < d) :
    (∀ k l, k < s.length → l < s.length → k ≠ l →
      g.calc_idx (g.cellOf (s.getD k [])) ≠
        g.calc_idx (g.cellOf (s.getD l []))) ∧
    (∀ pos id g' s', pos.length = dims.length →
      g.insert pos s = some (InsertRes.ok id, g', s') →
      g.data.getD (g.calc_idx (g.cellOf pos)) 0 = 0) := by
  obtain ⟨hgi, hgd⟩ := reachable_gridInv hreach hcs hspec hdims
  constructor
  · intro k l hk hl hkl hcon
    have h1 := hgi.samp_home k hk
    have h2 := hgi.samp_home l hl
    rw [hcon] at h1
    rw [h1] at h2
    omega
  · intro pos id g' s' hlen hins
    exact insert_ok_home_empty hgi (by rw [hgd]; exact hlen) hins

/-- Concrete reachable chain for the C9 witness: a fresh 1-dimensional grid
over extent 2 with minimum distance 1 (exact cell size 1), then the accepted
inserts `[1/4]` and `[3/2]`. -/
def exGrid2a : BackgroundGrid ℚ :=
  { data := [0, 0], dimensions := [2], min_dst_sqr := 1, cell_size := 1,
    cell_count := [2], cell_multiplicators := [1] }

def exGrid2b : BackgroundGrid ℚ :=
  { data := [1, 0], dimensions := [2], min_dst_sqr := 1, cell_size := 1,
    cell_count := [2], cell_multiplicators := [1] }

def exGrid2c : BackgroundGrid ℚ :=
  { data := [1, 2], dimensions := [2], min_dst_sqr := 1, cell_size := 1,
    cell_count := [2], cell_multiplicators := [1] }

theorem exReach2 : Reachable [2] (1 : ℚ) 1 exGrid2c [[(1 : ℚ)/4], [3/2]] :=
  Reachable.step exGrid2b [[(1 : ℚ)/4]] [3/2] (InsertRes.ok 2) exGrid2c
    [[(1 : ℚ)/4], [3/2]]
    (Reachable.step exGrid2a [] [(1 : ℚ)/4] (InsertRes.ok 1) exGrid2b
      [[(1 : ℚ)/4]]
      (Reachable.base exGrid2a (by with_unfolding_all rfl))
      (by decide) (by with_unfolding_all rfl))
    (by decide) (by with_unfolding_all rfl)

/-- Witness for claim C9: in the two-sample reachable state the two samples
occupy distinct cells. -/
theorem C9_cells_unique_witness :
    ((0 : ℚ) < 1 ∧ (([(2 : ℚ)].length : ℚ) * (1 * 1) ≤ 1 * 1 ∧
      ∀ d ∈ [(2 : ℚ)], 0 < d)) ∧
    exGrid2c.calc_idx (exGrid2c.cellOf ([[(1 : ℚ)/4], [3/2]].getD 0 [])) ≠
      exGrid2c.calc_idx (exGrid2c.cellOf ([[(1 : ℚ)/4], [3/2]].getD 1 [])) := by
  refine ⟨⟨by norm_num, by norm_num, ?_⟩, ?_⟩
  · intro d hd
    fin_cases hd
    norm_num
  · exact (C9_cells_unique exReach2 (by norm_num) (by norm_num)
      (by intro d hd; fin_cases hd; norm_num)).1 0 1 (by decide) (by decide)
      (by decide)

/-- Claim C10: in exact real arithmetic, `polar_to_cartesian` returns a
vector with one more coordinate than there are angles, whose sum of squared
coordinates is exactly `radius²` — so its Euclidean norm is `|radius|` — and
consequently the candidate `current + offset` built by the spawning loop lies
at squared distance exactly `radius²` from its parent sample. -/
theorem C10_polar_norm :
    (∀ (radius : ℝ) (angles : List ℝ),
      (polar_to_cartesian Real.sin Real.cos radius angles).length =
        angles.length + 1 ∧
      sumSq (polar_to_cartesian Real.sin Real.cos radius angles) =
        radius * radius ∧
      Real.sqrt
        (sumSq (polar_to_cartesian Real.sin Real.cos radius angles)) =
        |radius|) ∧
    (∀ (radius : ℝ) (angles : List ℝ) (current : List ℝ),
      current.length = angles.length + 1 →
      dst_sqr (((polar_to_cartesian Real.sin Real.cos radius angles).zip
        current).map (fun p => p.2 + p.1)) current = radius * radius) := by
  have hpyth : ∀ x : ℝ,
      Real.sin x * Real.sin x + Real.cos x * Real.cos x = 1 := by
    intro x
    have h := Real.sin_sq_add_cos_sq x
    nlinarith [h]
  constructor
  · intro radius angles
    refine ⟨polar_to_cartesian_length _ _ _ _,
      sumSq_polar_to_cartesian _ _ hpyth angles radius, ?_⟩
    rw [sumSq_polar_to_cartesian _ _ hpyth angles radius]
    exact Real.sqrt_mul_self_eq_abs radius
  · intro radius angles current hlen
    rw [dst_sqr_offset _ _
      (by rw [hlen, polar_to_cartesian_length])]
    exact sumSq_polar_to_cartesian _ _ hpyth angles radius

/-- Witness for claim C10 at radius 2, one angle, parent `(5, 7)`. -/
theorem C10_polar_norm_witness :
    (([(5 : ℝ), 7]).length = [(0 : ℝ)].length + 1) ∧
    dst_sqr (((polar_to_cartesian Real.sin Real.cos 2 [(0 : ℝ)]).zip
      [(5 : ℝ), 7]).map (fun p => p.2 + p.1)) [(5 : ℝ), 7] = 2 * 2 :=
  ⟨by decide, C10_polar_norm.2 2 [0] [5, 7] (by decide)⟩

/-- Claim C6: for every valid construction (nonempty positive extents,
positive minimum distance, exact cell size, a random tape satisfying the
modelling constraints), the produced sequence is finite: within at most
`emptyCells` pulls — the number of cells of the background grid — the
iterator signals the end of the sequence, so the draining loop of
`blue_noise` terminates. -/
theorem C6_generation_terminates {dims : List α} {md cs : α} {k : ℕ}
    {init : List α} {fr : ℕ → α} {fa : ℕ → List α} {sf cf : α → α}
    {s0 : BlueNoiseIterator α}
    (h : BlueNoiseIterator.new dims md cs k init fr fa sf cf = some s0)
    (hdne : dims ≠ []) (hdpos : ∀ d ∈ dims, 0 < d)
    (hcs : 0 < cs) (hspec : (dims.length : α) * (cs * cs) ≤ md * md)
    (hinitlen : init.length = dims.length)
    (hinitdom : ∀ p ∈ init.zip dims, 0 ≤ p.1 ∧ p.1 < p.2)
    (hradius : ∀ j, md ≤ fr j ∧ fr j < 2 * md)
    (hangles : ∀ j, (fa j).length = dims.length - 1)
    (hpyth : ∀ x, sf x * sf x + cf x * cf x = 1) :
    ∃ n, n ≤ s0.bggrid.emptyCells ∧ pullKindN s0 n = PullKind.ended := by
  have hInv := iterInv_new h hdne hdpos hcs hspec hinitlen hinitdom
    hradius hangles hpyth
  exact terminates_aux s0.bggrid.emptyCells s0 hInv (le_refl _)

/-- Witness for claim C6 at the explicit iterator `exIter0`. -/
theorem C6_generation_terminates_witness :
    (([(1 : ℚ)] ≠ []) ∧ (0 : ℚ) < 1) ∧
    ∃ n, n ≤ exIter0.bggrid.emptyCells ∧
      pullKindN exIter0 n = PullKind.ended :=
  ⟨⟨by decide, by norm_num⟩,
    C6_generation_terminates exIter0_new (by decide)
      (by intro d hd; fin_cases hd; with_unfolding_all decide)
      (by with_unfolding_all decide) (by with_unfolding_all decide)
      (by decide) (by with_unfolding_all decide)
      (fun j => ⟨by norm_num, by norm_num⟩) (fun j => by simp)
      (fun x => by norm_num)⟩

/-- Claim C7: with a zero retry budget, generation produces exactly one
point, the seed sample drawn from the tape. The first pull emits the seed,
and after any positive number of pulls the sample store is exactly the
singleton of the seed — in particular no pull after the first ever produces a
sample, so `blue_noise` returns exactly one point. -/
theorem C7_kabort_zero_single_sample {dims : List α} {md cs : α}
    {init : List α} {fr : ℕ → α} {fa : ℕ → List α} {sf cf : α → α}
    {s0 : BlueNoiseIterator α}
    (h : BlueNoiseIterator.new dims md cs 0 init fr fa sf cf = some s0)
    (hdne : dims ≠ []) (hdpos : ∀ d ∈ dims, 0 < d)
    (hcs : 0 < cs) (hspec : (dims.length : α) * (cs * cs) ≤ md * md)
    (hinitlen : init.length = dims.length)
    (hinitdom : ∀ p ∈ init.zip dims, 0 ≤ p.1 ∧ p.1 < p.2)
    (hradius : ∀ j, md ≤ fr j ∧ fr j < 2 * md)
    (hangles : ∀ j, (fa j).length = dims.length - 1)
    (hpyth : ∀ x, sf x * sf x + cf x * cf x = 1) :
    (∃ s1, BlueNoiseIterator.next s0 = Step.emit init s1) ∧
    ∀ n, 1 ≤ n → blue_noiseN s0 n = [init] ∧
      pullKindN s0 n ≠ PullKind.sample := by
  have hInv := iterInv_new h hdne hdpos hcs hspec hinitlen hinitdom
    hradius hangles hpyth
  obtain ⟨g, hg, hs0⟩ := blueNoiseIterator_new_elim h
  have hsampnil : s0.samples = [] := by rw [hs0]
  have hinit_eq : s0.rng_initial = init := by rw [hs0]
  have hk0 : s0.k_abort = 0 := by rw [hs0]
  obtain ⟨s1, hseed⟩ := next_seed hInv hsampnil
  rw [hinit_eq] at hseed
  have haux : ∀ n, 1 ≤ n → (iterN s0 n).samples = [init] := by
    intro n
    induction n with
    | zero => intro h0; exact absurd h0 (by omega)
    | succ n ihn =>
      intro _
      by_cases hn : 1 ≤ n
      · have hprev := ihn hn
        obtain ⟨i1, _, _, i4⟩ := iterN_inv hInv n
        have hk' : (iterN s0 n).k_abort = 0 := by rw [i4, hk0]
        have hsne : ¬ (iterN s0 n).samples.isEmpty = true := by
          rw [hprev]
          simp
        obtain ⟨p1, _, _, p4⟩ := next_preserves
          (2 * (iterN s0 n).next_active.length +
            ((iterN s0 n).active.length - (iterN s0 n).active_idx))
          (iterN s0 n) (le_refl _) i1
        have hnoemit := k0_no_emit
          (2 * (iterN s0 n).next_active.length +
            ((iterN s0 n).active.length - (iterN s0 n).active_idx))
          (iterN s0 n) (le_refl _) i1 hk' hsne
        show (stepState (BlueNoiseIterator.next (iterN s0 n))
          (iterN s0 n)).samples = [init]
        cases hres : BlueNoiseIterator.next (iterN s0 n) with
        | emit p s2 => exact absurd hres (hnoemit p s2)
        | ended s2 =>
          obtain ⟨e1, _⟩ := p4 s2 hres
          dsimp only [stepState]
          rw [e1, hprev]
        | panicked => exact absurd hres p1
      · have hn0 : n = 0 := by omega
        subst hn0
        show (stepState (BlueNoiseIterator.next s0) s0).samples = [init]
        rw [hseed]
        dsimp only [stepState]
        obtain ⟨_, _, p3, _⟩ := next_preserves
          (2 * s0.next_active.length +
            (s0.active.length - s0.active_idx)) s0 (le_refl _) hInv
        obtain ⟨e1, _⟩ := p3 init s1 hseed
        rw [e1, hsampnil]
        rfl
  refine ⟨⟨s1, hseed⟩, ?_⟩
  intro n hn
  refine ⟨haux n hn, ?_⟩
  obtain ⟨i1, _, _, i4⟩ := iterN_inv hInv n
  have hk' : (iterN s0 n).k_abort = 0 := by rw [i4, hk0]
  have hsne : ¬ (iterN s0 n).samples.isEmpty = true := by
    rw [haux n hn]
    simp
  have hnoemit := k0_no_emit
    (2 * (iterN s0 n).next_active.length +
      ((iterN s0 n).active.length - (iterN s0 n).active_idx))
    (iterN s0 n) (le_refl _) i1 hk' hsne
  unfold pullKindN
  cases hres : BlueNoiseIterator.next (iterN s0 n) with
  | emit p s2 => exact absurd hres (hnoemit p s2)
  | ended s2 => simp [Step.kind]
  | panicked => simp [Step.kind]

/-- Witness for claim C7 at the explicit iterator `exIter0` (whose retry
budget is zero): after two pulls the store is exactly the seed. -/
theorem C7_kabort_zero_single_sample_witness :
    (([(1 : ℚ)] ≠ []) ∧ (0 : ℚ) < 1 ∧ (1 : ℕ) ≤ 2) ∧
    blue_noiseN exIter0 2 = [[(1 : ℚ)/2]] :=
  ⟨⟨by decide, by norm_num, by omega⟩,
    ((C7_kabort_zero_single_sample exIter0_new (by decide)
      (by intro d hd; fin_cases hd; with_unfolding_all decide)
      (by with_unfolding_all decide) (by with_unfolding_all decide)
      (by decide) (by with_unfolding_all decide)
      (fun j => ⟨by norm_num, by norm_num⟩) (fun j => by simp)
      (fun x => by norm_num)).2 2 (by omega)).1⟩

/-- Claim C4: in every state the generator reaches, every sample after the
first has a parent: an earlier sample at squared Euclidean distance strictly
below `(2·min_distance)²` (the offset drawn by the spawning loop has norm in
`[min_distance, 2·min_distance)`). -/
theorem C4_parent_proximity {dims : List α} {md cs : α} {k : ℕ}
    {init : List α} {fr : ℕ → α} {fa : ℕ → List α} {sf cf : α → α}
    {s0 : BlueNoiseIterator α}
    (h : BlueNoiseIterator.new dims md cs k init fr fa sf cf = some s0)
    (hdne : dims ≠ []) (hdpos : ∀ d ∈ dims, 0 < d)
    (hcs : 0 < cs) (hspec : (dims.length : α) * (cs * cs) ≤ md * md)
    (hinitlen : init.length = dims.length)
    (hinitdom : ∀ p ∈ init.zip dims, 0 ≤ p.1 ∧ p.1 < p.2)
    (hradius : ∀ j, md ≤ fr j ∧ fr j < 2 * md)
    (hangles : ∀ j, (fa j).length = dims.length - 1)
    (hpyth : ∀ x, sf x * sf x + cf x * cf x = 1) :
    ∀ n i, 1 ≤ i → i < (iterN s0 n).samples.length →
      ∃ j, j < i ∧
        dst_sqr ((iterN s0 n).samples.getD i [])
          ((iterN s0 n).samples.getD j []) < (2 * md) * (2 * md) := by
  have hInv := iterInv_new h hdne hdpos hcs hspec hinitlen hinitdom
    hradius hangles hpyth
  obtain ⟨g, hg, hs0⟩ := blueNoiseIterator_new_elim h
  have hmd0 : s0.min_distance = md := by rw [hs0]
  intro n i h1 h2
  obtain ⟨i1, i2, _, _⟩ := iterN_inv hInv n
  obtain ⟨j, hj, hlt⟩ := i1.parent i h1 h2
  rw [i2, hmd0] at hlt
  exact ⟨j, hj, hlt⟩

/-- Concrete 1-dimensional iterator over `ℚ` for the C4 witness: extent 5,
minimum distance 1, exact cell size 1, retry budget 1, seed draw `1/2`,
radius tape constantly `3/2`, empty angle tapes. Its first two pulls emit
`[1/2]` and then `[2]` (the seed plus offset `3/2`). -/
def exGrid5a : BackgroundGrid ℚ :=
  { data := [0, 0, 0, 0, 0], dimensions := [5], min_dst_sqr := 1,
    cell_size := 1, cell_count := [5], cell_multiplicators := [1] }

def exIter1 : BlueNoiseIterator ℚ :=
  { dimensions := [5], min_distance := 1, k_abort := 1, samples := [],
    bggrid := exGrid5a, active := [], active_idx := 0, next_active := [],
    rng_initial := [1/2], rng_radius := fun _ => 3/2,
    rng_angles := fun _ => [], rng_ctr := 0, sinf := fun _ => 0,
    cosf := fun _ => 1 }

theorem exIter1_new :
    BlueNoiseIterator.new [5] (1 : ℚ) 1 1 [1/2] (fun _ => 3/2)
      (fun _ => []) (fun _ => 0) (fun _ => 1) = some exIter1 := by
  with_unfolding_all rfl

/-- Grid of `exIter1` after the seed pull. -/
def exGrid5b : BackgroundGrid ℚ :=
  { data := [1, 0, 0, 0, 0], dimensions := [5], min_dst_sqr := 1,
    cell_size := 1, cell_count := [5], cell_multiplicators := [1] }

/-- Grid of `exIter1` after the second pull. -/
def exGrid5c : BackgroundGrid ℚ :=
  { data := [1, 0, 2, 0, 0], dimensions := [5], min_dst_sqr := 1,
    cell_size := 1, cell_count := [5], cell_multiplicators := [1] }

/-- State of `exIter1` after the seed pull. -/
def exIter1a : BlueNoiseIterator ℚ :=
  { dimensions := [5], min_distance := 1, k_abort := 1,
    samples := [[1/2]], bggrid := exGrid5b,
    active := [1], active_idx := 0, next_active := [],
    rng_initial := [1/2], rng_radius := fun _ => 3/2,
    rng_angles := fun _ => [], rng_ctr := 0, sinf := fun _ => 0,
    cosf := fun _ => 1 }

/-- State of `exIter1` after the second pull. -/
def exIter1b : BlueNoiseIterator ℚ :=
  { dimensions := [5], min_distance := 1, k_abort := 1,
    samples := [[1/2], [2]], bggrid := exGrid5c,
    active := [1], active_idx := 1, next_active := [1, 2],
    rng_initial := [1/2], rng_radius := fun _ => 3/2,
    rng_angles := fun _ => [], rng_ctr := 1, sinf := fun _ => 0,
    cosf := fun _ => 1 }

theorem exIter1_step1 :
    BlueNoiseIterator.next exIter1 = Step.emit [(1 : ℚ)/2] exIter1a := by
  rw [BlueNoiseIterator.next]
  with_unfolding_all rfl

theorem exIter1_step2 :
    BlueNoiseIterator.next exIter1a = Step.emit [(2 : ℚ)] exIter1b := by
  rw [BlueNoiseIterator.next]
  with_unfolding_all rfl

theorem exIter1_iterN2 : iterN exIter1 2 = exIter1b := by
  have h1 : iterN exIter1 1 = exIter1a := by
    show stepState (BlueNoiseIterator.next exIter1) exIter1 = exIter1a
    rw [exIter1_step1]
    rfl
  show stepState (BlueNoiseIterator.next (iterN exIter1 1))
    (iterN exIter1 1) = exIter1b
  rw [h1, exIter1_step2]
  rfl

/-- Witness for claim C4: after two pulls of `exIter1` the second sample
`[2]` has the seed `[1/2]` as parent, at squared distance `9/4 < 4`. -/
theorem C4_parent_proximity_witness :
    (([(5 : ℚ)] ≠ []) ∧ (0 : ℚ) < 1 ∧ (1 : ℕ) ≤ 1 ∧
      1 < (iterN exIter1 2).samples.length) ∧
    ∃ j, j < 1 ∧
      dst_sqr ((iterN exIter1 2).samples.getD 1 [])
        ((iterN exIter1 2).samples.getD j []) <
        (2 * 1) * (2 * (1 : ℚ)) := by
  refine ⟨⟨by decide, by norm_num, le_refl 1, ?_⟩, ?_⟩
  · rw [exIter1_iterN2]
    with_unfolding_all decide
  · exact C4_parent_proximity exIter1_new (by decide)
      (by intro d hd; fin_cases hd; with_unfolding_all decide)
      (by with_unfolding_all decide) (by with_unfolding_all decide)
      (by decide) (by with_unfolding_all decide)
      (fun j => ⟨by norm_num, by norm_num⟩) (fun j => by simp)
      (fun x => by norm_num) 2 1 (le_refl 1)
      (by rw [exIter1_iterN2]; with_unfolding_all decide)

end BlueNoise

